import Mathlib

/-!
Verification of the jsonene schema metamodel (jsonene/fields.py, mixins.py,
operators.py, constraints.py) against its natural-language specification.

Python dictionaries compare equal independently of insertion order, so every
dictionary the code builds (schema documents, instance attribute stores,
decoded JSON objects) is modelled as an association list kept sorted by a
fixed strict total order on keys (`strLtB`); `dinsert` is dictionary
assignment (overwrite on an existing key) and `dlookup` is dictionary lookup.
Structural equality of these sorted lists coincides with Python `==` on
dictionaries.  JSON values are modelled by the inductive `Json`; Python
floats are outside the modelled fragment (numbers are integers here).
-/

namespace Jsonene

/-! ## A strict total order on strings, computable by the kernel -/

/-- Boolean comparison of characters by code point. -/
def charLtB (c d : Char) : Bool := c.toNat < d.toNat

/-- Boolean lexicographic comparison of character lists. -/
def listLtB : List Char → List Char → Bool
  | [], [] => false
  | [], _ :: _ => true
  | _ :: _, [] => false
  | c :: cs, d :: ds => charLtB c d || (c.toNat == d.toNat && listLtB cs ds)

/-- Boolean lexicographic comparison of strings, used as the canonical
dictionary-key order of the model. -/
def strLtB (a b : String) : Bool := listLtB a.data b.data

theorem char_toNat_inj {c d : Char} (h : c.toNat = d.toNat) : c = d :=
  Char.eq_of_val_eq (UInt32.eq_of_toBitVec_eq (BitVec.toNat_injective h))

theorem string_data_inj {a b : String} (h : a.data = b.data) : a = b := by
  cases a
  cases b
  exact congrArg String.mk h

theorem listLtB_irrefl (l : List Char) : listLtB l l = false := by
  induction l with
  | nil => rfl
  | cons c cs ih => simp [listLtB, charLtB, ih]

theorem listLtB_asymm_aux {a b : List Char} (h1 : listLtB a b = true)
    (h2 : listLtB b a = true) : False := by
  induction a generalizing b with
  | nil =>
      cases b with
      | nil => simp [listLtB] at h1
      | cons d ds => simp [listLtB] at h2
  | cons c cs ih =>
      cases b with
      | nil => simp [listLtB] at h1
      | cons d ds =>
          simp only [listLtB, charLtB, Bool.or_eq_true, Bool.and_eq_true,
            decide_eq_true_eq, beq_iff_eq] at h1 h2
          rcases h1 with h1 | ⟨he1, h1⟩ <;> rcases h2 with h2 | ⟨he2, h2⟩
          · omega
          · omega
          · omega
          · exact ih h1 h2

theorem listLtB_asymm {a b : List Char} (h : listLtB a b = true) : listLtB b a = false := by
  cases h2 : listLtB b a with
  | false => rfl
  | true => exact (listLtB_asymm_aux h h2).elim

theorem listLtB_trans {a b c : List Char} (h1 : listLtB a b = true)
    (h2 : listLtB b c = true) : listLtB a c = true := by
  induction a generalizing b c with
  | nil =>
      cases c with
      | nil =>
          cases b with
          | nil => simp [listLtB] at h1
          | cons d ds => simp [listLtB] at h2
      | cons e es => simp [listLtB]
  | cons x xs ih =>
      cases b with
      | nil => simp [listLtB] at h1
      | cons y ys =>
          cases c with
          | nil => simp [listLtB] at h2
          | cons z zs =>
              simp [listLtB, charLtB] at h1 h2 ⊢
              rcases h1 with h1 | ⟨he1, h1⟩ <;> rcases h2 with h2 | ⟨he2, h2⟩
              · left; omega
              · left; omega
              · left; omega
              · right; exact ⟨by omega, ih h1 h2⟩

theorem listLtB_total {a b : List Char} (hne : a ≠ b) :
    listLtB a b = true ∨ listLtB b a = true := by
  induction a generalizing b with
  | nil =>
      cases b with
      | nil => exact absurd rfl hne
      | cons d ds => left; simp [listLtB]
  | cons c cs ih =>
      cases b with
      | nil => right; simp [listLtB]
      | cons d ds =>
          rcases Nat.lt_trichotomy c.toNat d.toNat with h | h | h
          · left; simp [listLtB, charLtB]; omega
          · have hcd : c = d := char_toNat_inj h
            subst hcd
            have hne2 : cs ≠ ds := fun he => hne (by rw [he])
            rcases ih hne2 with h2 | h2
            · left; simp [listLtB, h2]
            · right; simp [listLtB, h2]
          · right; simp [listLtB, charLtB]; omega

theorem strLtB_irrefl (a : String) : strLtB a a = false := listLtB_irrefl a.data

theorem strLtB_asymm {a b : String} (h : strLtB a b = true) : strLtB b a = false :=
  listLtB_asymm h

theorem strLtB_trans {a b c : String} (h1 : strLtB a b = true) (h2 : strLtB b c = true) :
    strLtB a c = true := listLtB_trans h1 h2

theorem strLtB_total {a b : String} (hne : a ≠ b) :
    strLtB a b = true ∨ strLtB b a = true :=
  listLtB_total (fun h => hne (string_data_inj h))

theorem strLtB_ne {a b : String} (h : strLtB a b = true) : a ≠ b := by
  intro he
  subst he
  rw [strLtB_irrefl] at h
  exact Bool.false_ne_true h

theorem strLtB_of_not {a b : String} (h1 : strLtB a b = false) (h2 : a ≠ b) :
    strLtB b a = true := by
  rcases strLtB_total h2 with h | h
  · rw [h] at h1; exact absurd h1 (by simp)
  · exact h

/-! ## Sorted association lists: the model of Python dictionaries -/

/-- Lookup in an association list (Python `d[k]` / `dict.get`). -/
def dlookup {α : Type} (k : String) : List (String × α) → Option α
  | [] => none
  | (k1, v) :: rest => if k = k1 then some v else dlookup k rest

/-- Key-ordered insertion with overwrite: the model of Python `d[k] = v`. -/
def dinsert {α : Type} (k : String) (v : α) : List (String × α) → List (String × α)
  | [] => [(k, v)]
  | (k1, v1) :: rest =>
      if strLtB k k1 then (k, v) :: (k1, v1) :: rest
      else if k = k1 then (k, v) :: rest
      else (k1, v1) :: dinsert k v rest

/-- Removal of a key: the model of Python `d.pop(k)` discarding the value. -/
def derase {α : Type} (k : String) : List (String × α) → List (String × α)
  | [] => []
  | (k1, v1) :: rest => if k = k1 then derase k rest else (k1, v1) :: derase k rest

theorem dlookup_cons_self {α : Type} (k : String) (v : α) (t : List (String × α)) :
    dlookup k ((k, v) :: t) = some v := by simp [dlookup]

theorem dlookup_cons_ne {α : Type} {k k1 : String} (v : α) (t : List (String × α))
    (h : k ≠ k1) : dlookup k ((k1, v) :: t) = dlookup k t := by simp [dlookup, h]

theorem dinsert_cons_lt {α : Type} {k k1 : String} (v v1 : α) (t : List (String × α))
    (hlt : strLtB k k1 = true) :
    dinsert k v ((k1, v1) :: t) = (k, v) :: (k1, v1) :: t := by simp [dinsert, hlt]

theorem dinsert_cons_self {α : Type} (k : String) (v v1 : α) (t : List (String × α)) :
    dinsert k v ((k, v1) :: t) = (k, v) :: t := by simp [dinsert, strLtB_irrefl]

theorem dinsert_cons_gt {α : Type} {k k1 : String} (v v1 : α) (t : List (String × α))
    (h1 : ¬strLtB k k1 = true) (h2 : k ≠ k1) :
    dinsert k v ((k1, v1) :: t) = (k1, v1) :: dinsert k v t := by simp [dinsert, h1, h2]

/-- Strictly increasing key order: the representation invariant of the
dictionary model. -/
def keysSorted {α : Type} : List (String × α) → Bool
  | [] => true
  | [_] => true
  | (k1, _) :: (k2, v2) :: rest => strLtB k1 k2 && keysSorted ((k2, v2) :: rest)

theorem keysSorted_tail {α : Type} {p : String × α} {t : List (String × α)}
    (h : keysSorted (p :: t) = true) : keysSorted t = true := by
  cases t with
  | nil => rfl
  | cons q r =>
      obtain ⟨k2, v2⟩ := q
      obtain ⟨k1, v1⟩ := p
      simp [keysSorted] at h
      exact h.2

theorem keysSorted_cons_iff {α : Type} {k : String} {v : α} {t : List (String × α)} :
    keysSorted ((k, v) :: t) = true ↔
      ((∀ p ∈ t, strLtB k p.1 = true) ∧ keysSorted t = true) := by
  induction t generalizing k v with
  | nil => simp [keysSorted]
  | cons q r ih =>
      obtain ⟨k2, v2⟩ := q
      constructor
      · intro h
        have h1 : strLtB k k2 = true := by
          simp [keysSorted] at h
          exact h.1
        have h2 : keysSorted ((k2, v2) :: r) = true := keysSorted_tail h
        refine ⟨?_, h2⟩
        intro p hp
        rcases List.mem_cons.mp hp with hp | hp
        · rw [hp]; exact h1
        · exact strLtB_trans h1 (((ih).mp h2).1 p hp)
      · intro ⟨h1, h2⟩
        have hk : strLtB k k2 = true := h1 (k2, v2) (List.mem_cons_self _ _)
        simp [keysSorted, hk, h2]

theorem dlookup_mem {α : Type} {k : String} {v : α} {l : List (String × α)}
    (h : dlookup k l = some v) : (k, v) ∈ l := by
  induction l with
  | nil => simp [dlookup] at h
  | cons p rest ih =>
      obtain ⟨k1, v1⟩ := p
      by_cases he : k = k1
      · subst he
        simp [dlookup] at h
        subst h
        exact List.mem_cons_self _ _
      · simp [dlookup, he] at h
        exact List.mem_cons_of_mem _ (ih h)

theorem dlookup_eq_none_of_sorted {α : Type} {k : String} {v : α} {t : List (String × α)}
    (h : keysSorted ((k, v) :: t) = true) : dlookup k t = none := by
  rcases h1 : dlookup k t with _ | w
  · rfl
  · have hm : (k, w) ∈ t := dlookup_mem h1
    have hlt : strLtB k k = true := (keysSorted_cons_iff.mp h).1 (k, w) hm
    rw [strLtB_irrefl] at hlt
    exact absurd hlt (by simp)

theorem dict_ext {α : Type} {l1 l2 : List (String × α)} (h1 : keysSorted l1 = true)
    (h2 : keysSorted l2 = true) (h : ∀ k, dlookup k l1 = dlookup k l2) : l1 = l2 := by
  induction l1 generalizing l2 with
  | nil =>
      cases l2 with
      | nil => rfl
      | cons q r =>
          obtain ⟨k2, v2⟩ := q
          have := h k2
          simp [dlookup] at this
  | cons p t1 ih =>
      obtain ⟨k1, v1⟩ := p
      cases l2 with
      | nil =>
          have := h k1
          simp [dlookup] at this
      | cons q t2 =>
          obtain ⟨k2, v2⟩ := q
          have hkeq : k1 = k2 := by
            by_contra hne
            have ha : dlookup k1 t2 = some v1 := by
              have h3 := h k1
              rw [dlookup_cons_self, dlookup_cons_ne _ _ hne] at h3
              exact h3.symm
            have hb : dlookup k2 t1 = some v2 := by
              have hne2 : k2 ≠ k1 := fun h4 => hne h4.symm
              have h4 := h k2
              rw [dlookup_cons_self, dlookup_cons_ne _ _ hne2] at h4
              exact h4
            have hc : strLtB k2 k1 = true :=
              (keysSorted_cons_iff.mp h2).1 (k1, v1) (dlookup_mem ha)
            have hd : strLtB k1 k2 = true :=
              (keysSorted_cons_iff.mp h1).1 (k2, v2) (dlookup_mem hb)
            rw [strLtB_asymm hd] at hc
            exact Bool.false_ne_true hc
          subst hkeq
          have hveq : v1 = v2 := by
            have h5 := h k1
            rw [dlookup_cons_self, dlookup_cons_self] at h5
            exact Option.some.inj h5
          subst hveq
          have htl : ∀ k, dlookup k t1 = dlookup k t2 := by
            intro k
            by_cases he : k = k1
            · subst he
              rw [dlookup_eq_none_of_sorted h1, dlookup_eq_none_of_sorted h2]
            · have h6 := h k
              rw [dlookup_cons_ne _ _ he, dlookup_cons_ne _ _ he] at h6
              exact h6
          rw [ih (keysSorted_tail h1) (keysSorted_tail h2) htl]

theorem dlookup_dinsert_self {α : Type} (k : String) (v : α) (l : List (String × α)) :
    dlookup k (dinsert k v l) = some v := by
  induction l with
  | nil => simp [dinsert, dlookup]
  | cons p rest ih =>
      obtain ⟨k1, v1⟩ := p
      by_cases hlt : strLtB k k1 = true
      · simp [dinsert, hlt, dlookup]
      · by_cases he : k = k1
        · subst he
          simp [dinsert, strLtB_irrefl, dlookup]
        · simp [dinsert, hlt, he, dlookup, ih]

theorem dlookup_dinsert_ne {α : Type} {k k2 : String} (v : α) (l : List (String × α))
    (hne : k2 ≠ k) : dlookup k2 (dinsert k v l) = dlookup k2 l := by
  induction l with
  | nil => simp [dinsert, dlookup, hne]
  | cons p rest ih =>
      obtain ⟨k1, v1⟩ := p
      by_cases hlt : strLtB k k1 = true
      · simp [dinsert, hlt, dlookup, hne]
      · by_cases he : k = k1
        · subst he
          simp [dinsert, strLtB_irrefl, dlookup, hne]
        · by_cases he2 : k2 = k1
          · simp [dinsert, hlt, he, dlookup, he2]
          · simp [dinsert, hlt, he, dlookup, he2, ih]

theorem mem_dinsert {α : Type} {p : String × α} {k : String} {v : α}
    {l : List (String × α)} (h : p ∈ dinsert k v l) : p = (k, v) ∨ p ∈ l := by
  induction l with
  | nil =>
      simp [dinsert] at h
      left; exact h
  | cons q rest ih =>
      obtain ⟨k1, v1⟩ := q
      by_cases hlt : strLtB k k1 = true
      · rw [dinsert_cons_lt _ _ _ hlt] at h
        rcases List.mem_cons.mp h with h | h
        · left; exact h
        · right; exact h
      · by_cases he : k = k1
        · subst he
          rw [dinsert_cons_self] at h
          rcases List.mem_cons.mp h with h | h
          · left; exact h
          · right; exact List.mem_cons_of_mem _ h
        · rw [dinsert_cons_gt _ _ _ hlt he] at h
          rcases List.mem_cons.mp h with h | h
          · right; rw [h]; exact List.mem_cons_self _ _
          · rcases ih h with h2 | h2
            · left; exact h2
            · right; exact List.mem_cons_of_mem _ h2

theorem keysSorted_dinsert {α : Type} (k : String) (v : α) {l : List (String × α)}
    (h : keysSorted l = true) : keysSorted (dinsert k v l) = true := by
  induction l with
  | nil => simp [dinsert, keysSorted]
  | cons p rest ih =>
      obtain ⟨k1, v1⟩ := p
      by_cases hlt : strLtB k k1 = true
      · rw [dinsert_cons_lt _ _ _ hlt]
        rw [keysSorted_cons_iff]
        refine ⟨?_, h⟩
        intro q hq
        rcases List.mem_cons.mp hq with hq | hq
        · rw [hq]; exact hlt
        · exact strLtB_trans hlt ((keysSorted_cons_iff.mp h).1 q hq)
      · by_cases he : k = k1
        · subst he
          rw [dinsert_cons_self]
          rw [keysSorted_cons_iff] at h ⊢
          exact h
        · rw [dinsert_cons_gt _ _ _ hlt he]
          rw [keysSorted_cons_iff] at h ⊢
          refine ⟨?_, ih h.2⟩
          intro q hq
          rcases mem_dinsert hq with hq | hq
          · rw [hq]
            exact strLtB_of_not (Bool.eq_false_iff.mpr hlt) he
          · exact h.1 q hq

theorem dlookup_map_value {α β : Type} (f : α → β) (k : String) (l : List (String × α)) :
    dlookup k (l.map (fun p => (p.1, f p.2))) = (dlookup k l).map f := by
  induction l with
  | nil => simp [dlookup]
  | cons p rest ih =>
      obtain ⟨k1, v1⟩ := p
      by_cases he : k = k1
      · simp [dlookup, he]
      · simp [dlookup, he, ih]

theorem keysSorted_map_value {α β : Type} (f : α → β) {l : List (String × α)}
    (h : keysSorted l = true) : keysSorted (l.map (fun p => (p.1, f p.2))) = true := by
  induction l with
  | nil => rfl
  | cons p rest ih =>
      obtain ⟨k1, v1⟩ := p
      rw [keysSorted_cons_iff] at h
      simp only [List.map_cons]
      rw [keysSorted_cons_iff]
      refine ⟨?_, ih h.2⟩
      intro q hq
      rcases List.mem_map.mp hq with ⟨r, hr, hrq⟩
      rw [← hrq]
      exact h.1 r hr

theorem dlookup_derase_self {α : Type} (k : String) (l : List (String × α)) :
    dlookup k (derase k l) = none := by
  induction l with
  | nil => rfl
  | cons p rest ih =>
      obtain ⟨k1, v1⟩ := p
      by_cases he : k = k1
      · subst he
        simp [derase, ih]
      · simp [derase, he, dlookup, ih]

theorem dlookup_derase_ne {α : Type} {k k2 : String} (l : List (String × α))
    (hne : k2 ≠ k) : dlookup k2 (derase k l) = dlookup k2 l := by
  induction l with
  | nil => rfl
  | cons p rest ih =>
      obtain ⟨k1, v1⟩ := p
      by_cases he : k = k1
      · subst he
        simp [derase, dlookup, hne, ih]
      · by_cases he2 : k2 = k1
        · simp [derase, he, dlookup, he2]
        · simp [derase, he, dlookup, he2, ih]

/-! ## JSON values -/

/-- JSON-compatible values as produced by `json.loads` and by `serialize`.
Objects are Python dictionaries, represented sorted (see the file comment). -/
inductive Json : Type where
  | null : Json
  | bool (b : Bool) : Json
  | num (n : Int) : Json
  | str (s : String) : Json
  | arr (elems : List Json) : Json
  | obj (entries : List (String × Json)) : Json

mutual
/-- Representation invariant: every object inside the value has sorted keys,
so that structural equality of `Json` agrees with Python `==`. -/
def canonicalJson : Json → Bool
  | .null => true
  | .bool _ => true
  | .num _ => true
  | .str _ => true
  | .arr es => canonicalList es
  | .obj kvs => keysSorted kvs && canonicalEntries kvs
def canonicalList : List Json → Bool
  | [] => true
  | e :: es => canonicalJson e && canonicalList es
def canonicalEntries : List (String × Json) → Bool
  | [] => true
  | (_, v) :: rest => canonicalJson v && canonicalEntries rest
end

theorem canonicalEntries_lookup {k : String} {v : Json} {l : List (String × Json)}
    (h : canonicalEntries l = true) (hm : dlookup k l = some v) : canonicalJson v = true := by
  induction l with
  | nil => simp [dlookup] at hm
  | cons p rest ih =>
      obtain ⟨k1, v1⟩ := p
      rw [canonicalEntries] at h
      by_cases he : k = k1
      · simp [dlookup, he] at hm
        subst hm
        exact ((Bool.and_eq_true _ _).mp h).1
      · simp [dlookup, he] at hm
        exact ih ((Bool.and_eq_true _ _).mp h).2 hm

/-! ## Field descriptors (jsonene/fields.py)

The modelled fragment of the field metamodel: primitive fields (`Number`,
`Integer`, `String`, `Boolean`), nested `Schema` fields given by their list
of declared attribute bindings, and `List` fields with either one shared
item type (`_types` a single `Field`) or a positional tuple (`_types` a
Python list, which in the source is also the empty-declaration case).
Every descriptor carries the common `Field.__init__` configuration that the
modelled operations read: `required`, `name` (the external/wire name) and
`use_default`. -/

/-- Primitive field kinds of the modelled fragment, i.e. the concrete
`PrimitiveField` subclasses with their `_JSON_SCHEMA_TYPE`. -/
inductive PrimKind : Type where
  | number : PrimKind
  | integer : PrimKind
  | string : PrimKind
  | boolean : PrimKind

/-- JSON-Schema `type` string of a primitive kind (`_JSON_SCHEMA_TYPE`). -/
def PrimKind.schemaType : PrimKind → String
  | .number => "number"
  | .integer => "integer"
  | .string => "string"
  | .boolean => "boolean"

mutual
/-- Kind-specific payload of a field descriptor. -/
inductive FieldTy : Type where
  | prim (k : PrimKind) : FieldTy
  | schemaTy (fields : List (String × FieldDesc)) : FieldTy
  | listOne (t : FieldDesc) : FieldTy
  | listMany (ts : List FieldDesc) : FieldTy
/-- A field descriptor: `required`, external `name`, `use_default`, payload. -/
inductive FieldDesc : Type where
  | mk (required : Bool) (name : Option String) (useDefault : Option Json)
      (ty : FieldTy) : FieldDesc
end

def FieldDesc.required : FieldDesc → Bool
  | .mk r _ _ _ => r

def FieldDesc.name : FieldDesc → Option String
  | .mk _ n _ _ => n

def FieldDesc.useDefault : FieldDesc → Option Json
  | .mk _ _ d _ => d

def FieldDesc.ty : FieldDesc → FieldTy
  | .mk _ _ _ t => t

/-- Key under which a field appears in documents and attribute stores:
`obj.name or attr_name` in the source (external name when set, else the
attribute name; the model assumes external names are non-empty strings, so
Python truthiness agrees with `Option` matching). -/
def fieldKey (attr : String) (fd : FieldDesc) : String :=
  match fd.name with
  | some n => n
  | none => attr

mutual
/-- Structural size of a descriptor, used as a termination measure. -/
def fdSize : FieldDesc → Nat
  | .mk _ _ _ ty => tySize ty + 1
def tySize : FieldTy → Nat
  | .prim _ => 1
  | .schemaTy fs => fieldsSize fs + 1
  | .listOne t => fdSize t + 1
  | .listMany ts => fdListSize ts + 1
def fieldsSize : List (String × FieldDesc) → Nat
  | [] => 1
  | (_, fd) :: fs => fdSize fd + fieldsSize fs + 1
def fdListSize : List FieldDesc → Nat
  | [] => 1
  | t :: ts => fdSize t + fdListSize ts + 1
end

theorem fdSize_mem_fields {f : String} {fd : FieldDesc} {fs : List (String × FieldDesc)}
    (h : (f, fd) ∈ fs) : fdSize fd < fieldsSize fs := by
  induction fs with
  | nil => simp at h
  | cons p rest ih =>
      obtain ⟨f1, fd1⟩ := p
      rcases List.mem_cons.mp h with h | h
      · obtain ⟨h1, h2⟩ := Prod.mk.injEq .. ▸ (by exact h : (f, fd) = (f1, fd1))
        subst h2
        simp [fieldsSize]
        omega
      · have := ih h
        simp [fieldsSize]
        omega

theorem fdSize_mem_list {t : FieldDesc} {ts : List FieldDesc} (h : t ∈ ts) :
    fdSize t < fdListSize ts := by
  induction ts with
  | nil => simp at h
  | cons t1 rest ih =>
      rcases List.mem_cons.mp h with h | h
      · subst h
        simp [fdListSize]
        omega
      · have := ih h
        simp [fdListSize]
        omega

/-! ## The field-map resolver (`Field._get_allowed_fields_values`)

A Python class is modelled by its `__dict__` restricted to the attributes
that are `Field` instances, in declaration order (the `isinstance` filter of
the source drops everything else and preserves this order).  A type is given
by its method resolution order: the list of class dictionaries from the most
derived class to the least derived, as produced by `_get_all_supers`. -/

mutual
/-- Outer loop of `_get_allowed_fields_values`: `for sup in self._get_all_supers()`. -/
def gafv : List (List (String × FieldDesc)) → List String → List (String × FieldDesc)
  | [], _ => []
  | sup :: rest, visited => gafvClass sup rest visited
termination_by mro _ => (mro.length, 0)
/-- Inner loop: `for attr_name, field_obj in sup.__dict__.items()`, yielding
a binding on first sight of its name and recording the name in `visited`. -/
def gafvClass : List (String × FieldDesc) → List (List (String × FieldDesc)) →
    List String → List (String × FieldDesc)
  | [], rest, visited => gafv rest visited
  | (attr, fd) :: decls, rest, visited =>
      if attr ∈ visited then gafvClass decls rest visited
      else (attr, fd) :: gafvClass decls rest (visited ++ [attr])
termination_by decls rest _ => (rest.length, decls.length + 1)
end

/-- Resolved field map of a type, as the ordered list of yielded pairs of
`_get_allowed_fields_values` (the source materialises it with `dict(...)`,
which keeps exactly these pairs since names are yielded at most once). -/
def getAllowedFieldsValues (mro : List (List (String × FieldDesc))) :
    List (String × FieldDesc) :=
  gafv mro []

/-- Number of bindings of a given attribute name in an association list. -/
def countKey {α : Type} (k : String) (l : List (String × α)) : Nat :=
  (l.filter (fun p => p.1 = k)).length

theorem gafvClass_fresh (restm : List (List (String × FieldDesc))) :
    ∀ (decls : List (String × FieldDesc)) (visited : List String),
      ((gafvClass decls restm visited).map Prod.fst).Nodup ∧
      (∀ a ∈ (gafvClass decls restm visited).map Prod.fst, a ∉ visited) := by
  induction restm with
  | nil =>
      intro decls
      induction decls with
      | nil =>
          intro visited
          simp [gafvClass, gafv]
      | cons p ds ihd =>
          intro visited
          obtain ⟨attr, fd⟩ := p
          by_cases hv : attr ∈ visited
          · rw [gafvClass, if_pos hv]
            exact ihd visited
          · rw [gafvClass, if_neg hv]
            obtain ⟨hn, hf⟩ := ihd (visited ++ [attr])
            refine ⟨?_, ?_⟩
            · simp only [List.map_cons, List.nodup_cons]
              refine ⟨?_, hn⟩
              intro hmem
              have := hf attr hmem
              simp at this
            · intro a ha
              simp only [List.map_cons, List.mem_cons] at ha
              rcases ha with ha | ha
              · rw [ha]; exact hv
              · have := hf a ha
                simp at this
                exact fun hc => this.1 hc
  | cons sup rest2 ih =>
      intro decls
      induction decls with
      | nil =>
          intro visited
          rw [gafvClass, gafv]
          exact ih sup visited
      | cons p ds ihd =>
          intro visited
          obtain ⟨attr, fd⟩ := p
          by_cases hv : attr ∈ visited
          · rw [gafvClass, if_pos hv]
            exact ihd visited
          · rw [gafvClass, if_neg hv]
            obtain ⟨hn, hf⟩ := ihd (visited ++ [attr])
            refine ⟨?_, ?_⟩
            · simp only [List.map_cons, List.nodup_cons]
              refine ⟨?_, hn⟩
              intro hmem
              have := hf attr hmem
              simp at this
            · intro a ha
              simp only [List.map_cons, List.mem_cons] at ha
              rcases ha with ha | ha
              · rw [ha]; exact hv
              · have := hf a ha
                simp at this
                exact fun hc => this.1 hc

theorem gafv_nodup_keys (mro : List (List (String × FieldDesc))) (visited : List String) :
    ((gafv mro visited).map Prod.fst).Nodup := by
  cases mro with
  | nil => simp [gafv]
  | cons sup rest => rw [gafv]; exact (gafvClass_fresh rest sup visited).1

theorem gafvClass_lookup_head {x : String} {fdB : FieldDesc}
    (decls : List (String × FieldDesc)) (restm : List (List (String × FieldDesc)))
    (visited : List String) (hx : x ∉ visited) (hB : dlookup x decls = some fdB) :
    dlookup x (gafvClass decls restm visited) = some fdB := by
  induction decls generalizing visited with
  | nil => simp [dlookup] at hB
  | cons p ds ih =>
      obtain ⟨attr, fd⟩ := p
      by_cases he : x = attr
      · subst he
        rw [dlookup_cons_self] at hB
        rw [gafvClass, if_neg hx, dlookup_cons_self]
        exact hB
      · rw [dlookup_cons_ne _ _ he] at hB
        by_cases hv : attr ∈ visited
        · rw [gafvClass, if_pos hv]
          exact ih visited hx hB
        · rw [gafvClass, if_neg hv, dlookup_cons_ne _ _ he]
          refine ih (visited ++ [attr]) ?_ hB
          simp only [List.mem_append, List.mem_singleton]
          rintro (h | h)
          · exact hx h
          · exact he h

theorem nodup_keys_unique_binding {α : Type} {l : List (String × α)} {x : String}
    {a b : α} (hn : (l.map Prod.fst).Nodup) (ha : (x, a) ∈ l) (hb : (x, b) ∈ l) :
    a = b := by
  induction l with
  | nil => simp at ha
  | cons p rest ih =>
      obtain ⟨k1, v1⟩ := p
      simp only [List.map_cons, List.nodup_cons] at hn
      rcases List.mem_cons.mp ha with ha1 | ha1 <;> rcases List.mem_cons.mp hb with hb1 | hb1
      · rw [Prod.mk.injEq] at ha1 hb1
        rw [ha1.2, hb1.2]
      · rw [Prod.mk.injEq] at ha1
        exact absurd (List.mem_map_of_mem Prod.fst hb1) (ha1.1 ▸ hn.1)
      · rw [Prod.mk.injEq] at hb1
        exact absurd (List.mem_map_of_mem Prod.fst ha1) (hb1.1 ▸ hn.1)
      · exact ih hn.2 ha1 hb1

theorem countKey_cons {α : Type} (k1 : String) (v1 : α) (rest : List (String × α))
    (x : String) :
    countKey x ((k1, v1) :: rest) = (if k1 = x then 1 else 0) + countKey x rest := by
  by_cases h : k1 = x
  · simp [countKey, List.filter_cons, h]
    omega
  · simp [countKey, List.filter_cons, h]

theorem countKey_eq_zero {α : Type} {l : List (String × α)} {x : String}
    (h : x ∉ l.map Prod.fst) : countKey x l = 0 := by
  induction l with
  | nil => rfl
  | cons p rest ih =>
      obtain ⟨k1, v1⟩ := p
      simp only [List.map_cons, List.mem_cons] at h
      rw [countKey_cons, if_neg (fun hc => h (Or.inl hc.symm)), ih (fun hc => h (Or.inr hc))]

theorem countKey_eq_one {α : Type} {l : List (String × α)} {x : String}
    (hn : (l.map Prod.fst).Nodup) (hm : x ∈ l.map Prod.fst) : countKey x l = 1 := by
  induction l with
  | nil => simp at hm
  | cons p rest ih =>
      obtain ⟨k1, v1⟩ := p
      simp only [List.map_cons, List.nodup_cons] at hn
      rcases List.mem_cons.mp hm with hm1 | hm1
      · rw [countKey_cons, if_pos hm1.symm, countKey_eq_zero (hm1 ▸ hn.1)]
      · have h1 : k1 ≠ x := fun hc => hn.1 (hc ▸ hm1)
        rw [countKey_cons, if_neg h1, Nat.zero_add]
        exact ih hn.2 hm1

/-- C1: for a type `B` inheriting `A` where both declare a field descriptor
under the same attribute name `x`, the resolved field map of `B` (produced by
`_get_allowed_fields_values` over the method resolution order, most-derived
first, iterating each class's own declarations in order and keeping only the
first occurrence of each name) contains exactly one entry for `x`, and that
entry is `B`'s descriptor, never `A`'s. -/
theorem override_determinism (bDecls aDecls : List (String × FieldDesc))
    (rest : List (List (String × FieldDesc))) (x : String) (fdB : FieldDesc)
    (hB : dlookup x bDecls = some fdB) (hA : x ∈ aDecls.map Prod.fst) :
    dlookup x (getAllowedFieldsValues (bDecls :: aDecls :: rest)) = some fdB ∧
    countKey x (getAllowedFieldsValues (bDecls :: aDecls :: rest)) = 1 ∧
    ∀ fdA, (x, fdA) ∈ getAllowedFieldsValues (bDecls :: aDecls :: rest) → fdA = fdB := by
  have h1 : dlookup x (getAllowedFieldsValues (bDecls :: aDecls :: rest)) = some fdB := by
    rw [getAllowedFieldsValues, gafv]
    exact gafvClass_lookup_head bDecls (aDecls :: rest) [] (by simp) hB
  have hnodup : ((getAllowedFieldsValues (bDecls :: aDecls :: rest)).map Prod.fst).Nodup :=
    gafv_nodup_keys (bDecls :: aDecls :: rest) []
  have hmem : (x, fdB) ∈ getAllowedFieldsValues (bDecls :: aDecls :: rest) :=
    dlookup_mem h1
  refine ⟨h1, countKey_eq_one hnodup (List.mem_map_of_mem Prod.fst hmem), ?_⟩
  intro fdA hA2
  exact nodup_keys_unique_binding hnodup hA2 hmem

/-- Concrete instantiation of `override_determinism`: `B` redeclares `x`
(required integer) over `A`'s optional string `x`; the resolved map keeps
exactly `B`'s descriptor. -/
theorem override_determinism_witness :
    dlookup "x" (getAllowedFieldsValues
        ([("x", FieldDesc.mk true none none (.prim .integer))] ::
         [("x", FieldDesc.mk false none none (.prim .string)),
          ("y", FieldDesc.mk true none none (.prim .boolean))] :: [])) =
      some (FieldDesc.mk true none none (.prim .integer)) ∧
    countKey "x" (getAllowedFieldsValues
        ([("x", FieldDesc.mk true none none (.prim .integer))] ::
         [("x", FieldDesc.mk false none none (.prim .string)),
          ("y", FieldDesc.mk true none none (.prim .boolean))] :: [])) = 1 ∧
    ∀ fdA, (("x", fdA) ∈ getAllowedFieldsValues
        ([("x", FieldDesc.mk true none none (.prim .integer))] ::
         [("x", FieldDesc.mk false none none (.prim .string)),
          ("y", FieldDesc.mk true none none (.prim .boolean))] :: [])) →
      fdA = FieldDesc.mk true none none (.prim .integer) :=
  override_determinism
    [("x", FieldDesc.mk true none none (.prim .integer))]
    [("x", FieldDesc.mk false none none (.prim .string)),
     ("y", FieldDesc.mk true none none (.prim .boolean))]
    [] "x" (FieldDesc.mk true none none (.prim .integer))
    (by simp [dlookup]) (by simp)

/-! ## Instances and serialization (`Schema.Instance`, `List.Instance`)

An attribute value held by an instance is either a plain JSON value (set by
the keyword-construction path, which stores raw values), a nested
`Schema.Instance` (its attribute store), or a `List.Instance` (its `_list`).
`Schema.Instance.serialize` walks `vars(self)` skipping `ignore_attributes`;
the store model below already excludes `_schema`/`_field_map`. -/

inductive Val : Type where
  | raw (j : Json) : Val
  | inst (store : List (String × Val)) : Val
  | listInst (elems : List Val) : Val

mutual
/-- Serialization of one attribute value: instances recurse via their
`serialize`, everything else passes through (`Schema.Instance.serialize`,
`List.Instance.serialize`, `SingleValueInstance.serialize`). -/
def serializeVal : Val → Json
  | .raw j => j
  | .inst st => .obj (serializeStore st)
  | .listInst es => .arr (serializeValList es)
def serializeStore : List (String × Val) → List (String × Json)
  | [] => []
  | (k, w) :: rest => (k, serializeVal w) :: serializeStore rest
def serializeValList : List Val → List Json
  | [] => []
  | w :: ws => serializeVal w :: serializeValList ws
end

/-- The keyword-construction loop `Schema.Instance._set_by_field_map`: walk
the field map in order, pop the attribute name from `kwargs`, fall back to
`use_default`, skip a missing optional field, and store the value under
`obj.name or f`.  Leftover keyword arguments are never read. -/
def setByFieldMap : List (String × FieldDesc) → List (String × Json) →
    List (String × Val) → List (String × Val)
  | [], _, st => st
  | (f, fd) :: rest, kwargs, st =>
      match dlookup f kwargs with
      | some v => setByFieldMap rest (derase f kwargs) (dinsert (fieldKey f fd) (.raw v) st)
      | none =>
          match fd.useDefault with
          | some d => setByFieldMap rest kwargs (dinsert (fieldKey f fd) (.raw d) st)
          | none => setByFieldMap rest kwargs st

/-- Construction of a `Schema.Instance` from keyword data
(`Schema.Instance.__init__` with the default closed-world metadata, which
routes to `_set_by_field_map`).  The result is the attribute store. -/
def construct (fields : List (String × FieldDesc)) (kwargs : List (String × Json)) :
    List (String × Val) :=
  setByFieldMap fields kwargs []

/-! ## The schema compiler (`to_json_schema`) -/

/-- Python `x or False` for the optional `additional_properties` metadata
attribute returned by `_get_meta_attribute` (absent attribute is `None`). -/
def pyOrFalse : Option Bool → Bool
  | some true => true
  | _ => false

/-- The `dependencies` dictionary built by the loop
`for d in _field_dependencies: _schema["dependencies"][d.source] = d.targets`. -/
def depsDict (deps : List (String × List String)) : List (String × Json) :=
  deps.foldl (fun acc d => dinsert d.1 (Json.arr (d.2.map Json.str)) acc) []

/-- `if self.max_properties is not None: _schema["maxProperties"] = ...` -/
def maxPropsPart : Option Int → List (String × Json) → List (String × Json)
  | some n, s => dinsert "maxProperties" (Json.num n) s
  | none, s => s

/-- `if self.min_properties is not None: _schema["minProperties"] = ...` -/
def minPropsPart : Option Int → List (String × Json) → List (String × Json)
  | some n, s => dinsert "minProperties" (Json.num n) s
  | none, s => s

/-- `if _field_dependencies: _schema["dependencies"] = {...}` followed by the
emission loop. -/
def depsPart (deps : List (String × List String)) (s : List (String × Json)) :
    List (String × Json) :=
  if deps.isEmpty then s else dinsert "dependencies" (Json.obj (depsDict deps)) s

/-- Assembly of the object document of `Schema.to_json_schema` from already
compiled properties and required list: `type`/`properties`/`required` first,
then optional `maxProperties`/`minProperties`, then a `dependencies` entry
exactly when the meta declares at least one field dependency (emitted
verbatim), and finally `additionalProperties`. -/
def schemaDocCore (props : List (String × Json)) (req : List String)
    (deps : List (String × List String)) (metaAP : Option Bool)
    (maxP minP : Option Int) : List (String × Json) :=
  dinsert "additionalProperties" (Json.bool (pyOrFalse metaAP))
    (depsPart deps
      (minPropsPart minP
        (maxPropsPart maxP
          (dinsert "required" (Json.arr (req.map Json.str))
            (dinsert "properties" (Json.obj props)
              (dinsert "type" (Json.str "object") []))))))

theorem maxPropsPart_lookup_ne {k : String} (mp : Option Int)
    (s : List (String × Json)) (h : k ≠ "maxProperties") :
    dlookup k (maxPropsPart mp s) = dlookup k s := by
  cases mp with
  | none => rfl
  | some n => exact dlookup_dinsert_ne _ _ h

theorem minPropsPart_lookup_ne {k : String} (mp : Option Int)
    (s : List (String × Json)) (h : k ≠ "minProperties") :
    dlookup k (minPropsPart mp s) = dlookup k s := by
  cases mp with
  | none => rfl
  | some n => exact dlookup_dinsert_ne _ _ h

theorem depsPart_lookup_ne {k : String} (deps : List (String × List String))
    (s : List (String × Json)) (h : k ≠ "dependencies") :
    dlookup k (depsPart deps s) = dlookup k s := by
  rw [depsPart]
  cases deps.isEmpty with
  | true => rfl
  | false => exact dlookup_dinsert_ne _ _ h

/-- Required-key list of `Schema.to_json_schema`: the external key of every
field whose `required` flag is set, in field-map order. -/
def compileRequired : List (String × FieldDesc) → List String
  | [] => []
  | (f, fd) :: rest =>
      if fd.required then fieldKey f fd :: compileRequired rest
      else compileRequired rest

mutual
/-- Document of a single field descriptor (`field_obj.to_json_schema()`):
primitives emit their type keyword; a nested `Schema` field compiles with its
class's default metadata; a `List` field emits `type`, `items` (one shared
sub-document, or an aligned array when a positional tuple was declared and it
is non-empty) and `uniqueItems` (default `false`); the `List` metaclass
declares no `additional_items`, so none is emitted. -/
def fieldToJsonSchema : FieldDesc → Json
  | .mk _ _ _ (.prim k) => .obj [("type", .str k.schemaType)]
  | .mk _ _ _ (.schemaTy fs) =>
      .obj (schemaDocCore (compilePropsAux fs []) (compileRequired fs) [] none none none)
  | .mk _ _ _ (.listOne t) =>
      .obj (dinsert "uniqueItems" (.bool false)
        (dinsert "items" (fieldToJsonSchema t) (dinsert "type" (.str "array") [])))
  | .mk _ _ _ (.listMany ts) =>
      .obj (dinsert "uniqueItems" (.bool false)
        (match ts with
         | [] => dinsert "type" (.str "array") []
         | t :: rest =>
             dinsert "items" (.arr (compileItems (t :: rest)))
               (dinsert "type" (.str "array") [])))
termination_by fd => fdSize fd
decreasing_by all_goals (simp [fdSize, tySize, fieldsSize, fdListSize] <;> omega)
/-- Properties dictionary of `Schema.to_json_schema`, built by the loop
`_schema["properties"][fname] = field_obj.to_json_schema()`. -/
def compilePropsAux : List (String × FieldDesc) → List (String × Json) →
    List (String × Json)
  | [], acc => acc
  | (f, fd) :: rest, acc =>
      compilePropsAux rest (dinsert (fieldKey f fd) (fieldToJsonSchema fd) acc)
termination_by fs _ => fieldsSize fs
decreasing_by all_goals (simp [fdSize, tySize, fieldsSize, fdListSize] <;> omega)
/-- Item documents of a positional `List` field, in declaration order. -/
def compileItems : List FieldDesc → List Json
  | [] => []
  | t :: ts => fieldToJsonSchema t :: compileItems ts
termination_by ts => fdListSize ts
decreasing_by all_goals (simp [fdSize, tySize, fieldsSize, fdListSize] <;> omega)
end

/-- Compiled document of an object type (`Schema.to_json_schema`): resolved
field map, declared field dependencies of the meta, `additional_properties`
metadata, and the instance-level `max_properties`/`min_properties`. -/
def schemaToJsonSchema (fields : List (String × FieldDesc))
    (deps : List (String × List String)) (metaAP : Option Bool)
    (maxP minP : Option Int) : List (String × Json) :=
  schemaDocCore (compilePropsAux fields []) (compileRequired fields) deps metaAP maxP minP

/-! ## The external validation delegate

Modelled from the spec: the jsonschema library is an external collaborator
(spec section 4.3) and is not part of this repository; the predicates below
model `jsonschema.validate` on the documents this compiler emits, following
standard draft-07 semantics for the fragment: a primitive type keyword
checks the value's JSON type; an object document checks `required`, checks
each present property against its sub-document and, since the compiler
always emits `additionalProperties: false`, rejects unknown keys; an array
document checks every element against a single `items` sub-document, or
element-wise against an `items` array, in which case draft-07 allows any
extra trailing elements because the compiler emits no `additionalItems`.
The predicates take the typed descriptors rather than the compiled document;
the compiled document is a function of the descriptor (`fieldToJsonSchema`),
so this is validation against the field's compiled document. -/

/-- Draft-07 `type` keyword check for the primitive kinds (booleans are not
numbers under jsonschema draft-07). -/
def primAccepts : PrimKind → Json → Bool
  | .number, .num _ => true
  | .integer, .num _ => true
  | .string, .str _ => true
  | .boolean, .bool _ => true
  | _, _ => false

/-- With `additionalProperties: false`, every key of the value must be a
compiled property key. -/
def entriesCovered (fs : List (String × FieldDesc)) (entries : List (String × Json)) :
    Bool :=
  entries.all (fun p => fs.any (fun q => fieldKey q.1 q.2 == p.1))

mutual
/-- Validation of a value against a field's compiled document. -/
def fieldAccepts : FieldDesc → Json → Bool
  | .mk _ _ _ (.prim k), v => primAccepts k v
  | .mk _ _ _ (.schemaTy fs), v =>
      match v with
      | .obj entries => fieldsOk fs entries && entriesCovered fs entries
      | _ => false
  | .mk _ _ _ (.listOne t), v =>
      match v with
      | .arr es => allAccepts t es
      | _ => false
  | .mk _ _ _ (.listMany ts), v =>
      match v with
      | .arr es => zipAccepts ts es
      | _ => false
termination_by fd _ => (fdSize fd, 0)
decreasing_by all_goals first
  | (apply Prod.Lex.left; simp [fdSize, tySize, fieldsSize, fdListSize] <;> omega)
  | (apply Prod.Lex.right; simp [fdSize, tySize, fieldsSize, fdListSize] <;> omega)
/-- Per-field check of an object value: a present property must validate
against the field's document, an absent one is allowed only if optional. -/
def fieldsOk : List (String × FieldDesc) → List (String × Json) → Bool
  | [], _ => true
  | (f, fd) :: rest, entries =>
      (match dlookup (fieldKey f fd) entries with
       | some v => fieldAccepts fd v
       | none => !fd.required) && fieldsOk rest entries
termination_by fs _ => (fieldsSize fs, 0)
decreasing_by all_goals first
  | (apply Prod.Lex.left; simp [fdSize, tySize, fieldsSize, fdListSize] <;> omega)
  | (apply Prod.Lex.right; simp [fdSize, tySize, fieldsSize, fdListSize] <;> omega)
/-- Every element against one shared `items` document. -/
def allAccepts : FieldDesc → List Json → Bool
  | _, [] => true
  | t, e :: es => fieldAccepts t e && allAccepts t es
termination_by t es => (fdSize t, es.length + 1)
decreasing_by all_goals first
  | (apply Prod.Lex.left; simp [fdSize, tySize, fieldsSize, fdListSize] <;> omega)
  | (apply Prod.Lex.right; simp [fdSize, tySize, fieldsSize, fdListSize] <;> omega)
/-- Element-wise check against an `items` array; extra elements on either
side are unconstrained (draft-07 without `additionalItems`). -/
def zipAccepts : List FieldDesc → List Json → Bool
  | [], _ => true
  | _, [] => true
  | t :: ts, e :: es => fieldAccepts t e && zipAccepts ts es
termination_by ts _ => (fdListSize ts, 0)
decreasing_by all_goals first
  | (apply Prod.Lex.left; simp [fdSize, tySize, fieldsSize, fdListSize] <;> omega)
  | (apply Prod.Lex.right; simp [fdSize, tySize, fieldsSize, fdListSize] <;> omega)
end

/-- Validation of a value against an object type's compiled document
(`Schema`, default metadata). -/
def schemaAccepts (fs : List (String × FieldDesc)) (v : Json) : Bool :=
  match v with
  | .obj entries => fieldsOk fs entries && entriesCovered fs entries
  | _ => false

/-- Keys of defaulted fields that an object value must carry for the
deserializer not to add entries the value lacked (`deserialize` writes
`obj.from_json(use_default)` for a missing key whenever a default exists). -/
def defaultsPresent (fs : List (String × FieldDesc)) (entries : List (String × Json)) :
    Bool :=
  fs.all (fun p =>
    match p.2.useDefault with
    | some _ => (dlookup (fieldKey p.1 p.2) entries).isSome
    | none => true)

mutual
/-- Shape conditions under which deserialization loses nothing: positional
arrays are no longer than their declared type tuple (`zip` truncates), and
nested objects carry every defaulted key (`deserialize` adds defaults). -/
def fieldLenOk : FieldDesc → Json → Bool
  | .mk _ _ _ (.prim _), _ => true
  | .mk _ _ _ (.schemaTy fs), v =>
      match v with
      | .obj entries => fieldsLenOk fs entries && defaultsPresent fs entries
      | _ => true
  | .mk _ _ _ (.listOne t), v =>
      match v with
      | .arr es => allLenOk t es
      | _ => true
  | .mk _ _ _ (.listMany ts), v =>
      match v with
      | .arr es => decide (es.length ≤ ts.length) && zipLenOk ts es
      | _ => true
termination_by fd _ => (fdSize fd, 0)
decreasing_by all_goals first
  | (apply Prod.Lex.left; simp [fdSize, tySize, fieldsSize, fdListSize] <;> omega)
  | (apply Prod.Lex.right; simp [fdSize, tySize, fieldsSize, fdListSize] <;> omega)
def fieldsLenOk : List (String × FieldDesc) → List (String × Json) → Bool
  | [], _ => true
  | (f, fd) :: rest, entries =>
      (match dlookup (fieldKey f fd) entries with
       | some v => fieldLenOk fd v
       | none => true) && fieldsLenOk rest entries
termination_by fs _ => (fieldsSize fs, 0)
decreasing_by all_goals first
  | (apply Prod.Lex.left; simp [fdSize, tySize, fieldsSize, fdListSize] <;> omega)
  | (apply Prod.Lex.right; simp [fdSize, tySize, fieldsSize, fdListSize] <;> omega)
def allLenOk : FieldDesc → List Json → Bool
  | _, [] => true
  | t, e :: es => fieldLenOk t e && allLenOk t es
termination_by t es => (fdSize t, es.length + 1)
decreasing_by all_goals first
  | (apply Prod.Lex.left; simp [fdSize, tySize, fieldsSize, fdListSize] <;> omega)
  | (apply Prod.Lex.right; simp [fdSize, tySize, fieldsSize, fdListSize] <;> omega)
def zipLenOk : List FieldDesc → List Json → Bool
  | [], _ => true
  | _, [] => true
  | t :: ts, e :: es => fieldLenOk t e && zipLenOk ts es
termination_by ts _ => (fdListSize ts, 0)
decreasing_by all_goals first
  | (apply Prod.Lex.left; simp [fdSize, tySize, fieldsSize, fdListSize] <;> omega)
  | (apply Prod.Lex.right; simp [fdSize, tySize, fieldsSize, fdListSize] <;> omega)
end

/-- Object-level counterpart of `fieldLenOk`. -/
def schemaLenOk (fs : List (String × FieldDesc)) (v : Json) : Bool :=
  match v with
  | .obj entries => fieldsLenOk fs entries && defaultsPresent fs entries
  | _ => true

/-- Duplicate-freeness of a key list, computably. -/
def nodupKeysB : List String → Bool
  | [] => true
  | k :: ks => !(ks.contains k) && nodupKeysB ks

/-- Document keys of a field map. -/
def fieldKeys (fs : List (String × FieldDesc)) : List String :=
  fs.map (fun p => fieldKey p.1 p.2)

mutual
/-- Type-level well-formedness: along the whole descriptor tree, every
schema's document keys are pairwise distinct and every declared default is a
canonical value valid for its own field and safe to decode. -/
def fieldWF : FieldDesc → Bool
  | .mk r n d ty =>
      (match d with
       | some dv =>
           fieldAccepts (.mk r n (some dv) ty) dv && canonicalJson dv &&
             fieldLenOk (.mk r n (some dv) ty) dv
       | none => true) && tyWF ty
termination_by fd => fdSize fd
decreasing_by all_goals (simp [fdSize, tySize, fieldsSize, fdListSize] <;> omega)
def tyWF : FieldTy → Bool
  | .prim _ => true
  | .schemaTy fs => nodupKeysB (fieldKeys fs) && fieldsWF fs
  | .listOne t => fieldWF t
  | .listMany ts => fdListWF ts
termination_by ty => tySize ty
decreasing_by all_goals (simp [fdSize, tySize, fieldsSize, fdListSize] <;> omega)
def fieldsWF : List (String × FieldDesc) → Bool
  | [] => true
  | (_, fd) :: rest => fieldWF fd && fieldsWF rest
termination_by fs => fieldsSize fs
decreasing_by all_goals (simp [fdSize, tySize, fieldsSize, fdListSize] <;> omega)
def fdListWF : List FieldDesc → Bool
  | [] => true
  | t :: ts => fieldWF t && fdListWF ts
termination_by ts => fdListSize ts
decreasing_by all_goals (simp [fdSize, tySize, fieldsSize, fdListSize] <;> omega)
end

/-- Well-formedness of an object type: distinct document keys and
well-formed fields. -/
def schemaWF (fs : List (String × FieldDesc)) : Bool :=
  nodupKeysB (fieldKeys fs) && fieldsWF fs

/-! ## Deserialization (`from_json` / `deserialize`)

Modelled from the spec where the delegate raises: the repository's
`jsonene/exceptions.py` module (imported by `operators.py` and the demos but
absent from the sources) re-exports the validation failure; every `from_json`
first validates and raising is modelled by `Except.error`. -/

mutual
/-- Decoding one field's raw value, `obj.from_json(v)`: a primitive field
validates and returns the raw value (`SingleValueInstance.deserialize` is the
identity); a nested schema field is the classmethod `Schema.from_json`:
validate against the class document, build `cls.instance()` — an instance
whose constructor with no keyword arguments pre-populates the defaulted
attributes — then `instance.deserialize(data)`; a list field validates and
decodes elementwise into a fresh `List.Instance`. -/
def fieldFromJson : FieldDesc → Json → Except Unit Val
  | .mk r n d (.prim k), v =>
      if fieldAccepts (.mk r n d (.prim k)) v then .ok (.raw v) else .error ()
  | .mk r n d (.schemaTy fs), v =>
      if fieldAccepts (.mk r n d (.schemaTy fs)) v then
        match v with
        | .obj entries =>
            match deserFields fs entries (construct fs []) with
            | .ok st => .ok (.inst st)
            | .error e => .error e
        | _ => .error ()
      else .error ()
  | .mk r n d (.listOne t), v =>
      if fieldAccepts (.mk r n d (.listOne t)) v then
        match v with
        | .arr es =>
            match decodeAll t es with
            | .ok ws => .ok (.listInst ws)
            | .error e => .error e
        | _ => .error ()
      else .error ()
  | .mk r n d (.listMany ts), v =>
      if fieldAccepts (.mk r n d (.listMany ts)) v then
        match v with
        | .arr es =>
            match decodeZip ts es with
            | .ok ws => .ok (.listInst ws)
            | .error e => .error e
        | _ => .error ()
      else .error ()
termination_by fd _ => (fdSize fd, 0)
decreasing_by all_goals first
  | (apply Prod.Lex.left; simp [fdSize, tySize, fieldsSize, fdListSize] <;> omega)
  | (apply Prod.Lex.right; simp [fdSize, tySize, fieldsSize, fdListSize] <;> omega)
/-- The loop of `Schema.Instance.deserialize`: for every field of the map,
read `data[obj.name or fname]`, fall back to `obj.use_default`, skip if
missing, and store `obj.from_json(v)` under the external key. -/
def deserFields : List (String × FieldDesc) → List (String × Json) →
    List (String × Val) → Except Unit (List (String × Val))
  | [], _, st => .ok st
  | (f, fd) :: rest, entries, st =>
      match dlookup (fieldKey f fd) entries with
      | some v =>
          match fieldFromJson fd v with
          | .ok w => deserFields rest entries (dinsert (fieldKey f fd) w st)
          | .error e => .error e
      | none =>
          match fd.useDefault with
          | some d =>
              match fieldFromJson fd d with
              | .ok w => deserFields rest entries (dinsert (fieldKey f fd) w st)
              | .error e => .error e
          | none => deserFields rest entries st
termination_by fs _ _ => (fieldsSize fs, 0)
decreasing_by all_goals first
  | (apply Prod.Lex.left; simp [fdSize, tySize, fieldsSize, fdListSize] <;> omega)
  | (apply Prod.Lex.right; simp [fdSize, tySize, fieldsSize, fdListSize] <;> omega)
/-- `List.Instance.deserialize`, single-type branch: `for e in data:
self._list.append(obj.from_json(e))`. -/
def decodeAll : FieldDesc → List Json → Except Unit (List Val)
  | _, [] => .ok []
  | t, e :: es =>
      match fieldFromJson t e with
      | .ok w =>
          match decodeAll t es with
          | .ok ws => .ok (w :: ws)
          | .error e2 => .error e2
      | .error e2 => .error e2
termination_by t es => (fdSize t, es.length + 1)
decreasing_by all_goals first
  | (apply Prod.Lex.left; simp [fdSize, tySize, fieldsSize, fdListSize] <;> omega)
  | (apply Prod.Lex.right; simp [fdSize, tySize, fieldsSize, fdListSize] <;> omega)
/-- `List.Instance.deserialize`, positional branch: `for e, obj in
zip(data, _types): self._list.append(obj.from_json(e))` — `zip` stops at the
shorter of the two lists. -/
def decodeZip : List FieldDesc → List Json → Except Unit (List Val)
  | [], _ => .ok []
  | _, [] => .ok []
  | t :: ts, e :: es =>
      match fieldFromJson t e with
      | .ok w =>
          match decodeZip ts es with
          | .ok ws => .ok (w :: ws)
          | .error e2 => .error e2
      | .error e2 => .error e2
termination_by ts _ => (fdListSize ts, 0)
decreasing_by all_goals first
  | (apply Prod.Lex.left; simp [fdSize, tySize, fieldsSize, fdListSize] <;> omega)
  | (apply Prod.Lex.right; simp [fdSize, tySize, fieldsSize, fdListSize] <;> omega)
end

/-- `List.Instance.deserialize` itself: `self.schema._types` is either a
Python list of descriptors (positional declaration, also the empty one) or a
single descriptor; the decoded elements are appended to the instance's
(fresh) `_list`. -/
def listInstanceDeserialize (types : FieldDesc ⊕ List FieldDesc) (data : List Json) :
    Except Unit (List Val) :=
  match types with
  | .inr ts => decodeZip ts data
  | .inl t => decodeAll t data

/-- `Schema.from_json`: load, validate against the class document, build
`cls.instance()` (which pre-populates defaults) and `deserialize` into it. -/
def schemaFromJson (fs : List (String × FieldDesc)) (data : Json) :
    Except Unit (List (String × Val)) :=
  if schemaAccepts fs data then
    match data with
    | .obj entries => deserFields fs entries (construct fs [])
    | _ => .error ()
  else .error ()

/-- `Of.from_json` (operators.py): try the declared branches in order, the
first whose `validate` passes is decoded via its `from_json`; when every
branch's validation raises, the raw data is returned unchanged.  The caught
exception class comes from the repository's missing `exceptions` module and
is modelled from the spec as the validation failure of the delegate. -/
def ofFromJson : List FieldDesc → Json → Except Unit Val
  | [], d => .ok (.raw d)
  | t :: ts, d => if fieldAccepts t d then fieldFromJson t d else ofFromJson ts d

/-- C6 counterexample: a positional `List(Integer, String)` deserializing
`[1, "a", 2]` keeps only the zipped prefix `[1, "a"]`; the element `2` is
dropped, not decoded against a cycled type tuple. -/
theorem positional_list_truncates :
    listInstanceDeserialize
        (Sum.inr [FieldDesc.mk true none none (.prim .integer),
                  FieldDesc.mk true none none (.prim .string)])
        [Json.num 1, Json.str "a", Json.num 2] =
      Except.ok [Val.raw (Json.num 1), Val.raw (Json.str "a")] ∧
    Val.raw (Json.num 2) ∉ [Val.raw (Json.num 1), Val.raw (Json.str "a")] := by
  constructor
  · simp [listInstanceDeserialize, decodeZip, fieldFromJson, fieldAccepts, primAccepts,
      decodeAll]
  · simp

theorem except_bind_ok {α β : Type} (a : α) (f : α → Except Unit β) :
    (Except.ok a >>= f) = f a := rfl

theorem except_bind_error {α β : Type} (e : Unit) (f : α → Except Unit β) :
    ((Except.error e : Except Unit α) >>= f) = .error e := rfl

theorem except_pure_eq_ok {α : Type} (a : α) : (pure a : Except Unit α) = .ok a := rfl

/-- C6 amended: positional deserialization decodes the input pairwise with
the declared type tuple — exactly `zip(data, _types)` — so decoding stops at
the shorter of the two lists and input elements beyond the tuple's length
are silently dropped rather than cycled. -/
theorem positional_list_zip_semantics (ts : List FieldDesc) (es : List Json) :
    listInstanceDeserialize (Sum.inr ts) es =
      (es.zip ts).mapM (fun p => fieldFromJson p.2 p.1) := by
  rw [listInstanceDeserialize]
  induction ts generalizing es with
  | nil =>
      cases es with
      | nil => simp only [decodeZip, List.zip_nil_right]; rfl
      | cons e es2 => simp only [decodeZip, List.zip_nil_right]; rfl
  | cons t ts2 ih =>
      cases es with
      | nil => simp only [decodeZip, List.zip_nil_left]; rfl
      | cons e es2 =>
          rw [decodeZip]
          simp only [List.zip_cons_cons, List.mapM_cons]
          cases h1 : fieldFromJson t e with
          | ok w =>
              rw [ih es2]
              cases h2 : (es2.zip ts2).mapM (fun p => fieldFromJson p.2 p.1) with
              | ok ws => simp [h1, h2, except_bind_ok, except_pure_eq_ok]
              | error e2 => simp [h1, h2, except_bind_ok, except_bind_error]
          | error e2 => simp [h1, except_bind_error]

/-! ## Extraction lemmas for the well-formedness and validation predicates -/

theorem fieldWF_tyWF {r : Bool} {n : Option String} {d : Option Json} {ty : FieldTy}
    (h : fieldWF (.mk r n d ty) = true) : tyWF ty = true := by
  rcases d with _ | dv
  · simpa [fieldWF] using h
  · simp [fieldWF] at h
    tauto

theorem fieldWF_default_facts {r : Bool} {n : Option String} {ty : FieldTy} {dv : Json}
    (h : fieldWF (.mk r n (some dv) ty) = true) :
    fieldAccepts (.mk r n (some dv) ty) dv = true ∧ canonicalJson dv = true ∧
      fieldLenOk (.mk r n (some dv) ty) dv = true := by
  simp [fieldWF] at h
  tauto

theorem tyWF_schema {fs : List (String × FieldDesc)} (h : tyWF (.schemaTy fs) = true) :
    nodupKeysB (fieldKeys fs) = true ∧ fieldsWF fs = true := by
  simpa [tyWF] using h

theorem tyWF_listOne {t : FieldDesc} (h : tyWF (.listOne t) = true) : fieldWF t = true := by
  simpa [tyWF] using h

theorem tyWF_listMany {ts : List FieldDesc} (h : tyWF (.listMany ts) = true) :
    fdListWF ts = true := by
  simpa [tyWF] using h

theorem fieldsWF_mem {fs : List (String × FieldDesc)} {f : String} {fd : FieldDesc}
    (h : fieldsWF fs = true) (hm : (f, fd) ∈ fs) : fieldWF fd = true := by
  induction fs with
  | nil => simp at hm
  | cons p rest ih =>
      obtain ⟨f1, fd1⟩ := p
      rw [fieldsWF, Bool.and_eq_true] at h
      rcases List.mem_cons.mp hm with hm1 | hm1
      · obtain ⟨he1, he2⟩ := Prod.mk.injEq .. ▸ hm1
        subst he2
        exact h.1
      · exact ih h.2 hm1

theorem fdListWF_mem {ts : List FieldDesc} {t : FieldDesc}
    (h : fdListWF ts = true) (hm : t ∈ ts) : fieldWF t = true := by
  induction ts with
  | nil => simp at hm
  | cons t1 rest ih =>
      rw [fdListWF, Bool.and_eq_true] at h
      rcases List.mem_cons.mp hm with hm1 | hm1
      · subst hm1; exact h.1
      · exact ih h.2 hm1

theorem fieldsOk_mem_lookup {fs : List (String × FieldDesc)}
    {entries : List (String × Json)} {f : String} {fd : FieldDesc} {v : Json}
    (h : fieldsOk fs entries = true) (hm : (f, fd) ∈ fs)
    (hv : dlookup (fieldKey f fd) entries = some v) : fieldAccepts fd v = true := by
  induction fs with
  | nil => simp at hm
  | cons p rest ih =>
      obtain ⟨f1, fd1⟩ := p
      rw [fieldsOk, Bool.and_eq_true] at h
      rcases List.mem_cons.mp hm with hm1 | hm1
      · obtain ⟨he1, he2⟩ := Prod.mk.injEq .. ▸ hm1
        subst he1
        subst he2
        rw [hv] at h
        exact h.1
      · exact ih h.2 hm1

theorem fieldsOk_mem_missing {fs : List (String × FieldDesc)}
    {entries : List (String × Json)} {f : String} {fd : FieldDesc}
    (h : fieldsOk fs entries = true) (hm : (f, fd) ∈ fs)
    (hv : dlookup (fieldKey f fd) entries = none) : fd.required = false := by
  induction fs with
  | nil => simp at hm
  | cons p rest ih =>
      obtain ⟨f1, fd1⟩ := p
      rw [fieldsOk, Bool.and_eq_true] at h
      rcases List.mem_cons.mp hm with hm1 | hm1
      · obtain ⟨he1, he2⟩ := Prod.mk.injEq .. ▸ hm1
        subst he1
        subst he2
        rw [hv] at h
        have h1 := h.1
        simp at h1
        exact h1
      · exact ih h.2 hm1

theorem fieldsLenOk_mem_lookup {fs : List (String × FieldDesc)}
    {entries : List (String × Json)} {f : String} {fd : FieldDesc} {v : Json}
    (h : fieldsLenOk fs entries = true) (hm : (f, fd) ∈ fs)
    (hv : dlookup (fieldKey f fd) entries = some v) : fieldLenOk fd v = true := by
  induction fs with
  | nil => simp at hm
  | cons p rest ih =>
      obtain ⟨f1, fd1⟩ := p
      rw [fieldsLenOk, Bool.and_eq_true] at h
      rcases List.mem_cons.mp hm with hm1 | hm1
      · obtain ⟨he1, he2⟩ := Prod.mk.injEq .. ▸ hm1
        subst he1
        subst he2
        rw [hv] at h
        exact h.1
      · exact ih h.2 hm1

theorem defaultsPresent_mem {fs : List (String × FieldDesc)}
    {entries : List (String × Json)} {f : String} {fd : FieldDesc} {dv : Json}
    (h : defaultsPresent fs entries = true) (hm : (f, fd) ∈ fs)
    (hd : fd.useDefault = some dv) :
    (dlookup (fieldKey f fd) entries).isSome = true := by
  have h2 := List.all_eq_true.mp h (f, fd) hm
  simpa [hd] using h2

theorem entriesCovered_lookup {fs : List (String × FieldDesc)}
    {entries : List (String × Json)} {k : String} {v : Json}
    (h : entriesCovered fs entries = true) (hv : dlookup k entries = some v) :
    k ∈ fieldKeys fs := by
  have hm := dlookup_mem hv
  have h2 := List.all_eq_true.mp h (k, v) hm
  rcases List.any_eq_true.mp h2 with ⟨q, hq, he⟩
  rw [beq_iff_eq] at he
  have he2 : fieldKey q.1 q.2 = k := he
  rw [fieldKeys]
  exact List.mem_map.mpr ⟨q, hq, he2⟩

theorem canonicalList_mem {es : List Json} {e : Json}
    (h : canonicalList es = true) (hm : e ∈ es) : canonicalJson e = true := by
  induction es with
  | nil => simp at hm
  | cons e1 rest ih =>
      rw [canonicalList, Bool.and_eq_true] at h
      rcases List.mem_cons.mp hm with hm1 | hm1
      · subst hm1; exact h.1
      · exact ih h.2 hm1

/-! ## Decode success: a validated value always decodes -/

theorem decodeAll_ok (t : FieldDesc) (es : List Json)
    (hdec : ∀ v, fieldAccepts t v = true → ∃ w, fieldFromJson t v = .ok w)
    (hall : allAccepts t es = true) : ∃ ws, decodeAll t es = .ok ws := by
  induction es with
  | nil => exact ⟨[], by simp [decodeAll]⟩
  | cons e es2 ih =>
      rw [allAccepts, Bool.and_eq_true] at hall
      obtain ⟨w, hw⟩ := hdec e hall.1
      obtain ⟨ws, hws⟩ := ih hall.2
      exact ⟨w :: ws, by simp [decodeAll, hw, hws]⟩

theorem decodeZip_ok (ts : List FieldDesc) (es : List Json)
    (hdec : ∀ t ∈ ts, ∀ v, fieldAccepts t v = true → ∃ w, fieldFromJson t v = .ok w)
    (hz : zipAccepts ts es = true) : ∃ ws, decodeZip ts es = .ok ws := by
  induction ts generalizing es with
  | nil => exact ⟨[], by simp [decodeZip]⟩
  | cons t ts2 ih =>
      cases es with
      | nil => exact ⟨[], by simp [decodeZip]⟩
      | cons e es2 =>
          rw [zipAccepts, Bool.and_eq_true] at hz
          obtain ⟨w, hw⟩ := hdec t (List.mem_cons_self _ _) e hz.1
          obtain ⟨ws, hws⟩ :=
            ih es2 (fun u hu => hdec u (List.mem_cons_of_mem _ hu)) hz.2
          exact ⟨w :: ws, by simp [decodeZip, hw, hws]⟩

theorem deserFields_ok (fs : List (String × FieldDesc)) (entries : List (String × Json))
    (st0 : List (String × Val))
    (hdec : ∀ f fd, (f, fd) ∈ fs → ∀ v, fieldAccepts fd v = true →
      ∃ w, fieldFromJson fd v = .ok w)
    (hwf : fieldsWF fs = true) (hok : fieldsOk fs entries = true) :
    ∃ st, deserFields fs entries st0 = .ok st := by
  induction fs generalizing st0 with
  | nil => exact ⟨st0, by simp [deserFields]⟩
  | cons p rest ih =>
      obtain ⟨f, fd⟩ := p
      rw [fieldsOk, Bool.and_eq_true] at hok
      rw [fieldsWF, Bool.and_eq_true] at hwf
      have ihr := fun st1 =>
        ih st1 (fun f2 fd2 hm => hdec f2 fd2 (List.mem_cons_of_mem _ hm)) hwf.2 hok.2
      cases hv : dlookup (fieldKey f fd) entries with
      | some v =>
          rw [hv] at hok
          obtain ⟨w, hw⟩ := hdec f fd (List.mem_cons_self _ _) v hok.1
          obtain ⟨st, hst⟩ := ihr (dinsert (fieldKey f fd) w st0)
          exact ⟨st, by simp [deserFields, hv, hw, hst]⟩
      | none =>
          cases fd with
          | mk r n d ty =>
              rcases d with _ | dv
              · obtain ⟨st, hst⟩ := ihr st0
                exact ⟨st, by simp [deserFields, hv, FieldDesc.useDefault, hst]⟩
              · have hfw := hwf.1
                have hdok := (fieldWF_default_facts hfw).1
                obtain ⟨w, hw⟩ := hdec f _ (List.mem_cons_self _ _) dv hdok
                obtain ⟨st, hst⟩ :=
                  ihr (dinsert (fieldKey f (.mk r n (some dv) ty)) w st0)
                exact ⟨st, by simp [deserFields, hv, FieldDesc.useDefault, hw, hst]⟩

theorem fieldFromJson_ok_size : ∀ (N : Nat) (fd : FieldDesc) (v : Json),
    fdSize fd ≤ N → fieldWF fd = true → fieldAccepts fd v = true →
    ∃ w, fieldFromJson fd v = .ok w := by
  intro N
  induction N with
  | zero =>
      intro fd v h
      cases fd with
      | mk r n d ty => simp [fdSize] at h
  | succ N ihN =>
      intro fd v hsz hwf hacc
      cases fd with
      | mk r n d ty =>
          cases ty with
          | prim k => exact ⟨.raw v, by simp [fieldFromJson, hacc]⟩
          | schemaTy fs =>
              cases v with
              | obj entries =>
                  rw [show fieldAccepts (.mk r n d (.schemaTy fs)) (.obj entries) =
                        (fieldsOk fs entries && entriesCovered fs entries)
                      from by simp [fieldAccepts], Bool.and_eq_true] at hacc
                  obtain ⟨hnd, hfw⟩ := tyWF_schema (fieldWF_tyWF hwf)
                  have hdec : ∀ f2 fd2, (f2, fd2) ∈ fs → ∀ v2,
                      fieldAccepts fd2 v2 = true → ∃ w, fieldFromJson fd2 v2 = .ok w := by
                    intro f2 fd2 hm v2 hacc2
                    refine ihN fd2 v2 ?_ (fieldsWF_mem hfw hm) hacc2
                    have := fdSize_mem_fields hm
                    simp [fdSize, tySize] at hsz
                    omega
                  obtain ⟨st, hst⟩ :=
                    deserFields_ok fs entries (construct fs []) hdec hfw hacc.1
                  refine ⟨.inst st, ?_⟩
                  rw [fieldFromJson]
                  rw [if_pos (by simp [fieldAccepts, hacc.1, hacc.2])]
                  rw [hst]
              | null => simp [fieldAccepts] at hacc
              | bool b => simp [fieldAccepts] at hacc
              | num n2 => simp [fieldAccepts] at hacc
              | str s => simp [fieldAccepts] at hacc
              | arr es => simp [fieldAccepts] at hacc
          | listOne t =>
              cases v with
              | arr es =>
                  have hall : allAccepts t es = true := by
                    simpa [fieldAccepts] using hacc
                  have hdec : ∀ v2, fieldAccepts t v2 = true →
                      ∃ w, fieldFromJson t v2 = .ok w := by
                    intro v2 hacc2
                    refine ihN t v2 ?_ (tyWF_listOne (fieldWF_tyWF hwf)) hacc2
                    simp [fdSize, tySize] at hsz
                    omega
                  obtain ⟨ws, hws⟩ := decodeAll_ok t es hdec hall
                  refine ⟨.listInst ws, ?_⟩
                  rw [fieldFromJson]
                  rw [if_pos (by simp [fieldAccepts, hall])]
                  rw [hws]
              | null => simp [fieldAccepts] at hacc
              | bool b => simp [fieldAccepts] at hacc
              | num n2 => simp [fieldAccepts] at hacc
              | str s => simp [fieldAccepts] at hacc
              | obj entries => simp [fieldAccepts] at hacc
          | listMany ts =>
              cases v with
              | arr es =>
                  have hz : zipAccepts ts es = true := by
                    simpa [fieldAccepts] using hacc
                  have hdec : ∀ t2 ∈ ts, ∀ v2, fieldAccepts t2 v2 = true →
                      ∃ w, fieldFromJson t2 v2 = .ok w := by
                    intro t2 hm v2 hacc2
                    refine ihN t2 v2 ?_ (fdListWF_mem (tyWF_listMany (fieldWF_tyWF hwf)) hm)
                      hacc2
                    have := fdSize_mem_list hm
                    simp [fdSize, tySize] at hsz
                    omega
                  obtain ⟨ws, hws⟩ := decodeZip_ok ts es hdec hz
                  refine ⟨.listInst ws, ?_⟩
                  rw [fieldFromJson]
                  rw [if_pos (by simp [fieldAccepts, hz])]
                  rw [hws]
              | null => simp [fieldAccepts] at hacc
              | bool b => simp [fieldAccepts] at hacc
              | num n2 => simp [fieldAccepts] at hacc
              | str s => simp [fieldAccepts] at hacc
              | obj entries => simp [fieldAccepts] at hacc

/-- Every validated value decodes successfully on a well-formed field. -/
theorem fieldFromJson_ok {fd : FieldDesc} {v : Json} (hwf : fieldWF fd = true)
    (hacc : fieldAccepts fd v = true) : ∃ w, fieldFromJson fd v = .ok w :=
  fieldFromJson_ok_size (fdSize fd) fd v (Nat.le_refl _) hwf hacc

/-- C4: `Of.from_json` (AnyOf/OneOf/AllOf) tries the declared branches
strictly in declaration order and returns the decoded value of the first
branch whose validation of the raw value succeeds (the branch being
well-formed, its decoding succeeds rather than raising); when validation
fails for every branch, the raw value is returned unchanged instead of an
error being raised. -/
theorem combinator_resolution (d : Json) :
    (∀ (pre post : List FieldDesc) (t : FieldDesc),
      (∀ u ∈ pre, fieldAccepts u d = false) → fieldAccepts t d = true →
      fieldWF t = true →
      ofFromJson (pre ++ t :: post) d = fieldFromJson t d ∧
      ∃ w, fieldFromJson t d = .ok w) ∧
    (∀ branches : List FieldDesc,
      (∀ u ∈ branches, fieldAccepts u d = false) →
      ofFromJson branches d = .ok (.raw d)) := by
  constructor
  · intro pre post t h1 h2 hwf
    refine ⟨?_, fieldFromJson_ok hwf h2⟩
    induction pre with
    | nil => simp [ofFromJson, h2]
    | cons u pre2 ih =>
        have hu : fieldAccepts u d = false := h1 u (List.mem_cons_self _ _)
        rw [List.cons_append, ofFromJson, hu]
        simp only [Bool.false_eq_true, if_false]
        exact ih (fun u2 hu2 => h1 u2 (List.mem_cons_of_mem _ hu2))
  · intro branches hall
    induction branches with
    | nil => simp [ofFromJson]
    | cons u rest ih =>
        have hu : fieldAccepts u d = false := hall u (List.mem_cons_self _ _)
        rw [ofFromJson, hu]
        simp only [Bool.false_eq_true, if_false]
        exact ih (fun u2 hu2 => hall u2 (List.mem_cons_of_mem _ hu2))

/-- Concrete instantiation of `combinator_resolution`: with branches
`(Integer, String)` and raw value `"a"`, the `Integer` branch fails, the
`String` branch wins and decodes; with the single branch `(Integer)` the raw
value comes back unchanged. -/
theorem combinator_resolution_witness :
    ofFromJson [FieldDesc.mk true none none (.prim .integer),
                FieldDesc.mk true none none (.prim .string)] (Json.str "a") =
      fieldFromJson (FieldDesc.mk true none none (.prim .string)) (Json.str "a") ∧
    ofFromJson [FieldDesc.mk true none none (.prim .integer)] (Json.str "a") =
      .ok (.raw (Json.str "a")) := by
  constructor
  · exact ((combinator_resolution (Json.str "a")).1
      [FieldDesc.mk true none none (.prim .integer)] []
      (FieldDesc.mk true none none (.prim .string))
      (by
        intro u hu
        simp only [List.mem_singleton] at hu
        subst hu
        simp [fieldAccepts, primAccepts])
      (by simp [fieldAccepts, primAccepts])
      (by simp [fieldWF, tyWF])).1
  · exact (combinator_resolution (Json.str "a")).2
      [FieldDesc.mk true none none (.prim .integer)]
      (by
        intro u hu
        simp only [List.mem_singleton] at hu
        subst hu
        simp [fieldAccepts, primAccepts])

/-! ## The validator mixin (`mixins.py`) and format checking

`ValidatorMixin.validate` and `ValidatorMixin.validation_errors` dispatch to
the external jsonschema delegate; what the core controls is only which call
is made and whether `draft7_format_checker` is supplied.  A delegate call is
therefore modelled by its kind and that flag. -/

inductive DelegateCall : Type where
  | validateCall (formatChecker : Bool) : DelegateCall
  | iterErrorsCall (formatChecker : Bool) : DelegateCall

/-- `ValidatorMixin.validate`: `if check_formats:` call `jsonschema.validate`
with `format_checker=draft7_format_checker`, else without it. -/
def validatorMixinValidate (check_formats : Bool) : DelegateCall :=
  if check_formats then .validateCall true else .validateCall false

/-- `ValidatorMixin.validation_errors`: `if check_formats:` call
`draft_cls(schema).iter_errors(instance)` — no format checker — else call
`draft_cls(schema, format_checker=jsonschema.draft7_format_checker)
.iter_errors(instance)`. -/
def validatorMixinValidationErrors (check_formats : Bool) : DelegateCall :=
  if check_formats then .iterErrorsCall false else .iterErrorsCall true

/-- Modelled from the spec: the external delegate enforces format assertions
(email, date, uri, ...) exactly when a format checker is supplied with the
call (spec section 4.3). -/
def enforcesFormats : DelegateCall → Bool
  | .validateCall b => b
  | .iterErrorsCall b => b

/-- C5 counterexample: with `check_formats` left at its default `false`, the
error-collecting operation passes `draft7_format_checker` to the delegate,
so format assertions are enforced — the claim says they must not be. -/
theorem validation_errors_formats_on_by_default :
    enforcesFormats (validatorMixinValidationErrors false) = true := rfl

/-- C5 amended: the raising `validate` enforces format assertions exactly
when `check_formats` is `true`; `validation_errors` has the two branches
inverted and enforces format assertions exactly when `check_formats` is
`false` — including the default. -/
theorem format_checking_polarity (cf : Bool) :
    enforcesFormats (validatorMixinValidate cf) = cf ∧
    enforcesFormats (validatorMixinValidationErrors cf) = !cf := by
  cases cf <;> exact ⟨rfl, rfl⟩

/-! ## Dependencies emission (`Schema.to_json_schema`, constraints.py) -/

theorem schemaDocCore_dependencies_lookup (props : List (String × Json))
    (req : List String) (deps : List (String × List String)) (metaAP : Option Bool)
    (maxP minP : Option Int) :
    dlookup "dependencies" (schemaDocCore props req deps metaAP maxP minP) =
      (if deps.isEmpty then none else some (.obj (depsDict deps))) := by
  rw [schemaDocCore,
    dlookup_dinsert_ne _ _ (by decide : ("dependencies" : String) ≠ "additionalProperties"),
    depsPart]
  cases hd : deps.isEmpty with
  | true =>
      simp only [if_true]
      rw [minPropsPart_lookup_ne _ _ (by decide),
        maxPropsPart_lookup_ne _ _ (by decide),
        dlookup_dinsert_ne _ _ (by decide : ("dependencies" : String) ≠ "required"),
        dlookup_dinsert_ne _ _ (by decide : ("dependencies" : String) ≠ "properties"),
        dlookup_dinsert_ne _ _ (by decide : ("dependencies" : String) ≠ "type")]
      rfl
  | false =>
      simp only [Bool.false_eq_true, if_false]
      rw [dlookup_dinsert_self]

/-- C7 counterexample: a type with an empty field map but a declared
dependency `emails -> [contact]`-style entry `("a", ["b"])` compiles without
any error — the compiler is a total function with no failure path — and the
compiled document contains the dangling `dependencies` entry verbatim even
though neither `a` nor `b` is in the (empty) resolved field map. -/
theorem dependency_reference_unchecked :
    dlookup "dependencies" (schemaToJsonSchema [] [("a", ["b"])] none none none) =
      some (.obj [("a", Json.arr [Json.str "b"])]) ∧
    fieldKeys ([] : List (String × FieldDesc)) = [] := by
  constructor
  · rw [schemaToJsonSchema, schemaDocCore_dependencies_lookup]
    rfl
  · rfl

/-- C7 amended: compilation performs no dependency-reference validation and
can never fail: whenever at least one field dependency is declared, the
compiled document's `dependencies` member is exactly the declared
`source -> targets` map, emitted verbatim whether or not the named
attributes exist in the field map; with no declared dependency, no
`dependencies` key is emitted. -/
theorem dependencies_emitted_verbatim (fields : List (String × FieldDesc))
    (deps : List (String × List String)) (metaAP : Option Bool)
    (maxP minP : Option Int) :
    dlookup "dependencies" (schemaToJsonSchema fields deps metaAP maxP minP) =
      (if deps.isEmpty then none else some (.obj (depsDict deps))) := by
  rw [schemaToJsonSchema, schemaDocCore_dependencies_lookup]

/-! ## Numeric and string field compilation (`Number.to_json_schema`,
`String.to_json_schema`) -/

/-- Python exceptions raised by the primitive compilers: a failed `assert`
or the use of an undefined name. -/
inductive PyError : Type where
  | assertionError : PyError
  | nameError : PyError

/-- Configuration of a `Number` field relevant to its compilation. -/
structure NumberField : Type where
  required : Bool
  name : Option String
  min : Option Int
  max : Option Int
  exclusive_min : Option Int
  exclusive_max : Option Int
  multiple_of : Option Int

/-- `Number.to_json_schema`: base document `{"type": "number"}` from the
mixin, then `min`/`exclusive_min` (the latter only when `min is None`),
each asserted non-negative; then `max`/`exclusive_max`, asserted
non-negative but written under the misspelled keys `"maximun"` and
`"exclusiveMaximun"` exactly as in the source; then `multipleOf`
unchecked. -/
def numberToJsonSchema (f : NumberField) : Except PyError (List (String × Json)) := do
  let s0 : List (String × Json) := [("type", Json.str "number")]
  let s1 ←
    match f.min with
    | some m =>
        if m ≥ 0 then pure (dinsert "minimum" (Json.num m) s0)
        else Except.error PyError.assertionError
    | none =>
        match f.exclusive_min with
        | some m =>
            if m ≥ 0 then pure (dinsert "exclusiveMinimum" (Json.num m) s0)
            else Except.error PyError.assertionError
        | none => pure s0
  let s2 ←
    match f.max with
    | some m =>
        if m ≥ 0 then pure (dinsert "maximun" (Json.num m) s1)
        else Except.error PyError.assertionError
    | none =>
        match f.exclusive_max with
        | some m =>
            if m ≥ 0 then pure (dinsert "exclusiveMaximun" (Json.num m) s1)
            else Except.error PyError.assertionError
        | none => pure s1
  match f.multiple_of with
  | some m => pure (dinsert "multipleOf" (Json.num m) s2)
  | none => pure s2

/-- Configuration of a `String` field relevant to its compilation. -/
structure StringField : Type where
  required : Bool
  name : Option String
  min_len : Option Int
  max_len : Option Int
  pattern : Option String
  blank : Bool

/-- `String.to_json_schema`: base document `{"type": "string"}`;
`min_len -> minLength` (asserted non-negative; `blank` gives `minLength: 0`
only when `min_len is None`); `max_len -> maxLength` (asserted
non-negative); when a pattern is declared the source executes
`assert pattern` and `schema["pattern"] = pattern` with the bare name
`pattern`, which is undefined there — a `NameError`, modelled as the error
outcome. -/
def stringToJsonSchema (f : StringField) : Except PyError (List (String × Json)) := do
  let s0 : List (String × Json) := [("type", Json.str "string")]
  let s1 ←
    match f.min_len with
    | some m =>
        if m ≥ 0 then pure (dinsert "minLength" (Json.num m) s0)
        else Except.error PyError.assertionError
    | none =>
        if f.blank then pure (dinsert "minLength" (Json.num 0) s0)
        else pure s0
  let s2 ←
    match f.max_len with
    | some m =>
        if m ≥ 0 then pure (dinsert "maxLength" (Json.num m) s1)
        else Except.error PyError.assertionError
    | none => pure s1
  match f.pattern with
  | some _ => Except.error PyError.nameError
  | none => pure s2

/-- C8: evaluating the primitive compilers at the failing inputs.  The
declared bounds are checked non-negative (a negative bound is an assertion
failure), but `Number(max=5)` compiles to a document whose key is the
misspelled `"maximun"` — the standard keyword `"maximum"` is absent, so the
declared bound is never enforced by a conforming validator — and
`String(pattern=...)` does not emit `pattern` at all: it crashes with a
`NameError`.  `min_len`/`max_len` do map to `minLength`/`maxLength`. -/
theorem number_string_schema_emission_bugs :
    numberToJsonSchema ⟨true, none, none, some 5, none, none, none⟩ =
      .ok [("maximun", Json.num 5), ("type", Json.str "number")] ∧
    dlookup "maximum"
      [("maximun", Json.num 5), ("type", Json.str "number")] = none ∧
    numberToJsonSchema ⟨true, none, some (-1), none, none, none, none⟩ =
      .error PyError.assertionError ∧
    stringToJsonSchema ⟨true, none, none, none, some "^a", false⟩ =
      .error PyError.nameError ∧
    stringToJsonSchema ⟨true, none, some 2, some 4, none, false⟩ =
      .ok [("maxLength", Json.num 4), ("minLength", Json.num 2),
           ("type", Json.str "string")] := by
  refine ⟨?_, ?_, ?_, ?_, ?_⟩ <;> rfl

/-! ## Compile purity (`to_json_schema` is read-only and deterministic) -/

/-- Compile-relevant state of an object type: resolved field map, meta
field dependencies, meta `additional_properties`, and the instance-level
`max_properties`/`min_properties`. -/
structure SchemaTy : Type where
  fields : List (String × FieldDesc)
  deps : List (String × List String)
  metaAP : Option Bool
  maxP : Option Int
  minP : Option Int

/-- `Schema.to_json_schema` as a state-passing computation: it returns the
compiled document together with the descriptor state after the call, which
the source never mutates (it only builds fresh dictionaries). -/
def schemaToJsonSchemaSt (t : SchemaTy) : (List (String × Json)) × SchemaTy :=
  (schemaToJsonSchema t.fields t.deps t.metaAP t.maxP t.minP, t)

/-- Configuration of a `List` field relevant to its compilation:
`_types` (one shared descriptor or a positional Python list), the item
bounds, `unique_items`, the `additional_items` metadata attribute (absent on
`List`, `True` on `GenericList`), and the `contains` family, on which the
source calls `.to_json_schema()`. -/
structure ListField : Type where
  required : Bool
  name : Option String
  types : FieldDesc ⊕ List FieldDesc
  max_items : Option Int
  min_items : Option Int
  unique_items : Bool
  metaAdditionalItems : Option Bool
  contains : Option FieldDesc
  min_contains : Option FieldDesc
  max_contains : Option FieldDesc

/-- `List.to_json_schema` as a state-passing computation: `type: array`;
`items` as a single sub-document or an aligned array (omitted when the
positional list is empty); `maxItems`/`minItems` when set; `uniqueItems`
always; `additionalItems` only when the metadata attribute is truthy;
`contains`/`minContains`/`maxContains` compiled when set.  The state is
returned unchanged. -/
def listToJsonSchemaSt (lf : ListField) : (List (String × Json)) × ListField :=
  let s0 : List (String × Json) := [("type", Json.str "array")]
  let s1 := match lf.types with
    | .inl t => dinsert "items" (fieldToJsonSchema t) s0
    | .inr [] => s0
    | .inr (t :: ts) => dinsert "items" (.arr (compileItems (t :: ts))) s0
  let s2 := match lf.max_items with
    | some n => dinsert "maxItems" (.num n) s1
    | none => s1
  let s3 := match lf.min_items with
    | some n => dinsert "minItems" (.num n) s2
    | none => s2
  let s4 := dinsert "uniqueItems" (.bool lf.unique_items) s3
  let s5 := match lf.metaAdditionalItems with
    | some true => dinsert "additionalItems" (.bool true) s4
    | _ => s4
  let s6 := match lf.contains with
    | some c => dinsert "contains" (fieldToJsonSchema c) s5
    | none => s5
  let s7 := match lf.min_contains with
    | some c => dinsert "minContains" (fieldToJsonSchema c) s6
    | none => s6
  let s8 := match lf.max_contains with
    | some c => dinsert "maxContains" (fieldToJsonSchema c) s7
    | none => s7
  (s8, lf)

/-- C9: compilation is deterministic and side-effect-free — for both the
object compiler (`Schema.to_json_schema`) and the list compiler
(`List.to_json_schema`), the descriptor state after a compile equals the
state before it, and compiling a second time after a first compile yields a
structurally equal document. -/
theorem compile_purity :
    (∀ t : SchemaTy, (schemaToJsonSchemaSt t).2 = t ∧
      (schemaToJsonSchemaSt ((schemaToJsonSchemaSt t).2)).1 = (schemaToJsonSchemaSt t).1) ∧
    (∀ lf : ListField, (listToJsonSchemaSt lf).2 = lf ∧
      (listToJsonSchemaSt ((listToJsonSchemaSt lf).2)).1 = (listToJsonSchemaSt lf).1) :=
  ⟨fun t => ⟨rfl, rfl⟩, fun lf => ⟨rfl, rfl⟩⟩

/-! ## Shape of the compiled object document (C2) -/

theorem schemaDocCore_properties_lookup (props : List (String × Json))
    (req : List String) (deps : List (String × List String)) (metaAP : Option Bool)
    (maxP minP : Option Int) :
    dlookup "properties" (schemaDocCore props req deps metaAP maxP minP) =
      some (.obj props) := by
  rw [schemaDocCore,
    dlookup_dinsert_ne _ _ (by decide : ("properties" : String) ≠ "additionalProperties"),
    depsPart_lookup_ne _ _ (by decide),
    minPropsPart_lookup_ne _ _ (by decide),
    maxPropsPart_lookup_ne _ _ (by decide),
    dlookup_dinsert_ne _ _ (by decide : ("properties" : String) ≠ "required"),
    dlookup_dinsert_self]

theorem schemaDocCore_required_lookup (props : List (String × Json))
    (req : List String) (deps : List (String × List String)) (metaAP : Option Bool)
    (maxP minP : Option Int) :
    dlookup "required" (schemaDocCore props req deps metaAP maxP minP) =
      some (.arr (req.map Json.str)) := by
  rw [schemaDocCore,
    dlookup_dinsert_ne _ _ (by decide : ("required" : String) ≠ "additionalProperties"),
    depsPart_lookup_ne _ _ (by decide),
    minPropsPart_lookup_ne _ _ (by decide),
    maxPropsPart_lookup_ne _ _ (by decide),
    dlookup_dinsert_self]

theorem schemaDocCore_additionalProperties_lookup (props : List (String × Json))
    (req : List String) (deps : List (String × List String)) (metaAP : Option Bool)
    (maxP minP : Option Int) :
    dlookup "additionalProperties" (schemaDocCore props req deps metaAP maxP minP) =
      some (.bool (pyOrFalse metaAP)) := by
  rw [schemaDocCore, dlookup_dinsert_self]

theorem nodupKeysB_cons {k : String} {ks : List String}
    (h : nodupKeysB (k :: ks) = true) : k ∉ ks ∧ nodupKeysB ks = true := by
  rw [nodupKeysB, Bool.and_eq_true] at h
  refine ⟨?_, h.2⟩
  intro hm
  have h2 := h.1
  have h3 : ks.contains k = true := by simpa using hm
  rw [h3] at h2
  simp at h2

theorem compilePropsAux_lookup_notmem {fs : List (String × FieldDesc)} {k : String}
    (acc : List (String × Json)) (h : k ∉ fieldKeys fs) :
    dlookup k (compilePropsAux fs acc) = dlookup k acc := by
  induction fs generalizing acc with
  | nil => rw [compilePropsAux]
  | cons p rest ih =>
      obtain ⟨f, fd⟩ := p
      rw [fieldKeys, List.map_cons] at h
      rw [compilePropsAux, ih _ (fun hm => h (List.mem_cons_of_mem _ hm)),
        dlookup_dinsert_ne _ _ (fun he => h (by simp [he]))]

theorem compilePropsAux_lookup_mem {fs : List (String × FieldDesc)} {f : String}
    {fd : FieldDesc} (acc : List (String × Json))
    (hnd : nodupKeysB (fieldKeys fs) = true) (hm : (f, fd) ∈ fs) :
    dlookup (fieldKey f fd) (compilePropsAux fs acc) = some (fieldToJsonSchema fd) := by
  induction fs generalizing acc with
  | nil => simp at hm
  | cons p rest ih =>
      obtain ⟨f1, fd1⟩ := p
      rw [fieldKeys, List.map_cons] at hnd
      obtain ⟨hnotin, hnd2⟩ := nodupKeysB_cons hnd
      rcases List.mem_cons.mp hm with hm1 | hm1
      · obtain ⟨he1, he2⟩ := Prod.mk.injEq .. ▸ hm1
        subst he1
        subst he2
        rw [compilePropsAux,
          compilePropsAux_lookup_notmem _ (by simpa [fieldKeys] using hnotin),
          dlookup_dinsert_self]
      · rw [compilePropsAux]
        exact ih _ hnd2 hm1

theorem compileRequired_subset {fs : List (String × FieldDesc)} {k : String}
    (h : k ∈ compileRequired fs) : k ∈ fieldKeys fs := by
  induction fs with
  | nil => simp [compileRequired] at h
  | cons p rest ih =>
      obtain ⟨f, fd⟩ := p
      rw [compileRequired] at h
      rw [fieldKeys, List.map_cons]
      by_cases hr : fd.required = true
      · rw [if_pos hr] at h
        rcases List.mem_cons.mp h with h1 | h1
        · exact h1 ▸ List.mem_cons_self _ _
        · exact List.mem_cons_of_mem _ (ih h1)
      · rw [if_neg hr] at h
        exact List.mem_cons_of_mem _ (ih h)

theorem compileRequired_mem_iff {fs : List (String × FieldDesc)} {f : String}
    {fd : FieldDesc} (hnd : nodupKeysB (fieldKeys fs) = true) (hm : (f, fd) ∈ fs) :
    (fieldKey f fd ∈ compileRequired fs ↔ fd.required = true) := by
  induction fs with
  | nil => simp at hm
  | cons p rest ih =>
      obtain ⟨f1, fd1⟩ := p
      rw [fieldKeys, List.map_cons] at hnd
      obtain ⟨hnotin, hnd2⟩ := nodupKeysB_cons hnd
      rcases List.mem_cons.mp hm with hm1 | hm1
      · obtain ⟨he1, he2⟩ := Prod.mk.injEq .. ▸ hm1
        subst he1
        subst he2
        rw [compileRequired]
        by_cases hr : fd.required = true
        · rw [if_pos hr]
          simp [hr]
        · rw [if_neg hr]
          constructor
          · intro hin
            exact absurd (by simpa [fieldKeys] using compileRequired_subset hin) hnotin
          · intro hc
            exact absurd hc hr
      · have hne : fieldKey f fd ≠ fieldKey f1 fd1 := by
          intro he
          exact hnotin
            (he ▸ (by simpa [fieldKeys] using
              List.mem_map_of_mem (fun p => fieldKey p.1 p.2) hm1))
        rw [compileRequired]
        by_cases hr : fd1.required = true
        · rw [if_pos hr]
          rw [List.mem_cons]
          constructor
          · intro h2
            rcases h2 with h2 | h2
            · exact absurd h2 hne
            · exact (ih hnd2 hm1).mp h2
          · intro h2
            exact Or.inr ((ih hnd2 hm1).mpr h2)
        · rw [if_neg hr]
          exact ih hnd2 hm1

/-- C2: for every object type compiled with the default closed-world
metadata, each field in the resolved field map appears in the document's
`properties` under its external name when one is set and under the attribute
name otherwise, with its own compiled sub-document; the field's key is in
the `required` list exactly when the field's `required` flag is set; and the
compiled document contains `additionalProperties: false` whenever the
metadata does not allow additional properties (`None` or `False`, the
default being absent metadata).  Field keys are assumed pairwise distinct,
as produced by the field-map resolver for ordinarily named fields. -/
theorem schema_compile_shape (fields : List (String × FieldDesc))
    (deps : List (String × List String)) (metaAP : Option Bool)
    (maxP minP : Option Int)
    (hnd : nodupKeysB (fieldKeys fields) = true)
    (hap : pyOrFalse metaAP = false) :
    dlookup "properties" (schemaToJsonSchema fields deps metaAP maxP minP) =
      some (.obj (compilePropsAux fields [])) ∧
    dlookup "required" (schemaToJsonSchema fields deps metaAP maxP minP) =
      some (.arr ((compileRequired fields).map Json.str)) ∧
    dlookup "additionalProperties" (schemaToJsonSchema fields deps metaAP maxP minP) =
      some (.bool false) ∧
    (∀ f fd, (f, fd) ∈ fields →
      dlookup (fieldKey f fd) (compilePropsAux fields []) =
        some (fieldToJsonSchema fd) ∧
      (fieldKey f fd ∈ compileRequired fields ↔ fd.required = true)) := by
  refine ⟨schemaDocCore_properties_lookup .., schemaDocCore_required_lookup ..,
    ?_, ?_⟩
  · rw [schemaToJsonSchema, schemaDocCore_additionalProperties_lookup, hap]
  · intro f fd hm
    exact ⟨compilePropsAux_lookup_mem _ hnd hm, compileRequired_mem_iff hnd hm⟩

/-- Concrete instantiation of `schema_compile_shape`: two fields, `a` (a
required integer) and `b` (an optional string under external name `bee`). -/
theorem schema_compile_shape_witness :
    dlookup "properties"
      (schemaToJsonSchema
        [("a", FieldDesc.mk true none none (.prim .integer)),
         ("b", FieldDesc.mk false (some "bee") none (.prim .string))] [] none none none) =
      some (.obj (compilePropsAux
        [("a", FieldDesc.mk true none none (.prim .integer)),
         ("b", FieldDesc.mk false (some "bee") none (.prim .string))] [])) ∧
    dlookup "required"
      (schemaToJsonSchema
        [("a", FieldDesc.mk true none none (.prim .integer)),
         ("b", FieldDesc.mk false (some "bee") none (.prim .string))] [] none none none) =
      some (.arr ((compileRequired
        [("a", FieldDesc.mk true none none (.prim .integer)),
         ("b", FieldDesc.mk false (some "bee") none (.prim .string))]).map Json.str)) ∧
    dlookup "additionalProperties"
      (schemaToJsonSchema
        [("a", FieldDesc.mk true none none (.prim .integer)),
         ("b", FieldDesc.mk false (some "bee") none (.prim .string))] [] none none none) =
      some (.bool false) ∧
    (∀ f fd,
      (f, fd) ∈ [("a", FieldDesc.mk true none none (.prim .integer)),
                 ("b", FieldDesc.mk false (some "bee") none (.prim .string))] →
      dlookup (fieldKey f fd) (compilePropsAux
        [("a", FieldDesc.mk true none none (.prim .integer)),
         ("b", FieldDesc.mk false (some "bee") none (.prim .string))] []) =
        some (fieldToJsonSchema fd) ∧
      (fieldKey f fd ∈ compileRequired
        [("a", FieldDesc.mk true none none (.prim .integer)),
         ("b", FieldDesc.mk false (some "bee") none (.prim .string))] ↔
        fd.required = true)) :=
  schema_compile_shape
    [("a", FieldDesc.mk true none none (.prim .integer)),
     ("b", FieldDesc.mk false (some "bee") none (.prim .string))]
    [] none none none (by rfl) (by rfl)

/-! ## Unknown keyword arguments (C10) -/

theorem derase_comm {α : Type} (k1 k2 : String) (l : List (String × α)) :
    derase k1 (derase k2 l) = derase k2 (derase k1 l) := by
  induction l with
  | nil => rfl
  | cons p rest ih =>
      obtain ⟨ka, va⟩ := p
      by_cases h1 : k1 = ka
      · subst h1
        by_cases h2 : k2 = k1
        · subst h2
          simp [derase, ih]
        · simp [derase, h2, ih]
      · by_cases h2 : k2 = ka
        · subst h2
          simp [derase, h1, ih]
        · simp [derase, h1, h2, ih]

theorem setByFieldMap_erase_unknown {fields : List (String × FieldDesc)} {k : String}
    (kwargs : List (String × Json)) (st : List (String × Val))
    (hk : k ∉ fields.map Prod.fst) :
    setByFieldMap fields kwargs st = setByFieldMap fields (derase k kwargs) st := by
  induction fields generalizing kwargs st with
  | nil => rw [setByFieldMap, setByFieldMap]
  | cons p rest ih =>
      obtain ⟨f, fd⟩ := p
      rw [List.map_cons] at hk
      have hfk : f ≠ k := fun he => hk (he ▸ List.mem_cons_self _ _)
      have hk2 : k ∉ rest.map Prod.fst := fun hm => hk (List.mem_cons_of_mem _ hm)
      rw [setByFieldMap, setByFieldMap, dlookup_derase_ne _ hfk]
      cases hv : dlookup f kwargs with
      | some v =>
          rw [derase_comm]
          exact ih _ _ hk2
      | none =>
          cases fd.useDefault with
          | some d => exact ih _ _ hk2
          | none => exact ih _ _ hk2

theorem setByFieldMap_lookup_notkey {fields : List (String × FieldDesc)} {k : String}
    (kwargs : List (String × Json)) (st : List (String × Val))
    (hk : k ∉ fieldKeys fields) :
    dlookup k (setByFieldMap fields kwargs st) = dlookup k st := by
  induction fields generalizing kwargs st with
  | nil => rw [setByFieldMap]
  | cons p rest ih =>
      obtain ⟨f, fd⟩ := p
      rw [fieldKeys, List.map_cons] at hk
      have hne : k ≠ fieldKey f fd := fun he => hk (he ▸ List.mem_cons_self _ _)
      have hk2 : k ∉ fieldKeys rest := fun hm => hk (List.mem_cons_of_mem _ hm)
      rw [setByFieldMap]
      cases hv : dlookup f kwargs with
      | some v => rw [ih _ _ hk2, dlookup_dinsert_ne _ _ hne]
      | none =>
          cases fd.useDefault with
          | some d => rw [ih _ _ hk2, dlookup_dinsert_ne _ _ hne]
          | none => exact ih _ _ hk2

theorem serializeStore_eq_map (st : List (String × Val)) :
    serializeStore st = st.map (fun p => (p.1, serializeVal p.2)) := by
  induction st with
  | nil => rfl
  | cons p rest ih =>
      obtain ⟨k, w⟩ := p
      rw [serializeStore, ih, List.map_cons]

/-- C10: for every object type with the default closed-world metadata,
construction from keyword arguments containing a key that is not an
attribute name of the resolved field map succeeds (the construction function
is total: leftover keywords are never read) and silently discards that
entry — the constructed store is the one obtained from the keyword
dictionary with the unknown key removed — and, provided the key is not the
external name of some field either, no attribute is stored under it and it
does not occur in the serialized output. -/
theorem unknown_kwargs_discarded (fields : List (String × FieldDesc))
    (kwargs : List (String × Json)) (k : String)
    (hk : k ∉ fields.map Prod.fst) (hk2 : k ∉ fieldKeys fields) :
    construct fields kwargs = construct fields (derase k kwargs) ∧
    dlookup k (construct fields kwargs) = none ∧
    dlookup k (serializeStore (construct fields kwargs)) = none := by
  have h1 : construct fields kwargs = construct fields (derase k kwargs) :=
    setByFieldMap_erase_unknown kwargs [] hk
  have h2 : dlookup k (construct fields kwargs) = none :=
    setByFieldMap_lookup_notkey kwargs [] hk2
  refine ⟨h1, h2, ?_⟩
  rw [serializeStore_eq_map, dlookup_map_value, h2]
  rfl

/-- Concrete instantiation of `unknown_kwargs_discarded`: field map with the
single attribute `a`, keyword data `{a: 1, zz: 9}`, unknown key `zz`. -/
theorem unknown_kwargs_discarded_witness :
    construct [("a", FieldDesc.mk true none none (.prim .integer))]
        [("a", Json.num 1), ("zz", Json.num 9)] =
      construct [("a", FieldDesc.mk true none none (.prim .integer))]
        (derase "zz" [("a", Json.num 1), ("zz", Json.num 9)]) ∧
    dlookup "zz" (construct [("a", FieldDesc.mk true none none (.prim .integer))]
      [("a", Json.num 1), ("zz", Json.num 9)]) = none ∧
    dlookup "zz" (serializeStore
      (construct [("a", FieldDesc.mk true none none (.prim .integer))]
        [("a", Json.num 1), ("zz", Json.num 9)])) = none :=
  unknown_kwargs_discarded
    [("a", FieldDesc.mk true none none (.prim .integer))]
    [("a", Json.num 1), ("zz", Json.num 9)] "zz"
    (by decide) (by decide)

/-! ## Round-trip machinery (C3) -/

theorem canonicalEntries_mem_iff {l : List (String × Json)} :
    canonicalEntries l = true ↔ ∀ p ∈ l, canonicalJson p.2 = true := by
  induction l with
  | nil => simp [canonicalEntries]
  | cons p rest ih =>
      obtain ⟨k, v⟩ := p
      rw [canonicalEntries, Bool.and_eq_true, ih]
      constructor
      · intro ⟨h1, h2⟩ q hq
        rcases List.mem_cons.mp hq with hq | hq
        · rw [hq]; exact h1
        · exact h2 q hq
      · intro h
        exact ⟨h (k, v) (List.mem_cons_self _ _),
          fun q hq => h q (List.mem_cons_of_mem _ hq)⟩

theorem mem_derase {α : Type} {p : String × α} {k : String} {l : List (String × α)}
    (h : p ∈ derase k l) : p ∈ l := by
  induction l with
  | nil => simpa [derase] using h
  | cons q rest ih =>
      obtain ⟨k1, v1⟩ := q
      by_cases he : k = k1
      · rw [derase, if_pos he] at h
        exact List.mem_cons_of_mem _ (ih h)
      · rw [derase, if_neg he] at h
        rcases List.mem_cons.mp h with h1 | h1
        · exact h1 ▸ List.mem_cons_self _ _
        · exact List.mem_cons_of_mem _ (ih h1)

theorem canonicalEntries_derase {k : String} {l : List (String × Json)}
    (h : canonicalEntries l = true) : canonicalEntries (derase k l) = true :=
  canonicalEntries_mem_iff.mpr
    (fun p hp => canonicalEntries_mem_iff.mp h p (mem_derase hp))

theorem canonicalEntries_dinsert {k : String} {v : Json} {l : List (String × Json)}
    (hv : canonicalJson v = true) (h : canonicalEntries l = true) :
    canonicalEntries (dinsert k v l) = true := by
  refine canonicalEntries_mem_iff.mpr (fun p hp => ?_)
  rcases mem_dinsert hp with hp | hp
  · rw [hp]; exact hv
  · exact canonicalEntries_mem_iff.mp h p hp

theorem map_value_dinsert {α β : Type} (g : α → β) (k : String) (w : α)
    (st : List (String × α)) :
    (dinsert k w st).map (fun p => (p.1, g p.2)) =
      dinsert k (g w) (st.map (fun p => (p.1, g p.2))) := by
  induction st with
  | nil => rfl
  | cons p rest ih =>
      obtain ⟨k1, w1⟩ := p
      by_cases hlt : strLtB k k1 = true
      · simp [dinsert_cons_lt _ _ _ hlt]
      · by_cases he : k = k1
        · subst he
          simp [dinsert_cons_self]
        · simp [dinsert_cons_gt _ _ _ hlt he, ih]

theorem serializeStore_dinsert (k : String) (w : Val) (st : List (String × Val)) :
    serializeStore (dinsert k w st) = dinsert k (serializeVal w) (serializeStore st) := by
  rw [serializeStore_eq_map, serializeStore_eq_map, map_value_dinsert]

theorem keysSorted_serializeStore {st : List (String × Val)}
    (h : keysSorted st = true) : keysSorted (serializeStore st) = true := by
  rw [serializeStore_eq_map]
  exact keysSorted_map_value _ h

theorem keysSorted_setByFieldMap (fs : List (String × FieldDesc))
    (kwargs : List (String × Json)) {st : List (String × Val)}
    (h : keysSorted st = true) : keysSorted (setByFieldMap fs kwargs st) = true := by
  induction fs generalizing kwargs st with
  | nil => rw [setByFieldMap]; exact h
  | cons p rest ih =>
      obtain ⟨f, fd⟩ := p
      rw [setByFieldMap]
      cases hv : dlookup f kwargs with
      | some v => exact ih _ (keysSorted_dinsert _ _ h)
      | none =>
          cases fd.useDefault with
          | some d => exact ih _ (keysSorted_dinsert _ _ h)
          | none => exact ih _ h

theorem setByFieldMap_serialize_canonical (fs : List (String × FieldDesc))
    (kwargs : List (String × Json)) {st : List (String × Val)}
    (h0 : canonicalEntries (serializeStore st) = true)
    (hkw : canonicalEntries kwargs = true) (hwf : fieldsWF fs = true) :
    canonicalEntries (serializeStore (setByFieldMap fs kwargs st)) = true := by
  induction fs generalizing kwargs st with
  | nil => rw [setByFieldMap]; exact h0
  | cons p rest ih =>
      obtain ⟨f, fd⟩ := p
      rw [fieldsWF, Bool.and_eq_true] at hwf
      rw [setByFieldMap]
      cases hv : dlookup f kwargs with
      | some v =>
          refine ih _ ?_ (canonicalEntries_derase hkw) hwf.2
          rw [serializeStore_dinsert]
          exact canonicalEntries_dinsert
            (canonicalEntries_lookup hkw hv) h0
      | none =>
          cases fd with
          | mk r n d ty =>
              rcases d with _ | dv
              · rw [FieldDesc.useDefault]
                exact ih _ h0 hkw hwf.2
              · rw [FieldDesc.useDefault]
                refine ih _ ?_ hkw hwf.2
                rw [serializeStore_dinsert]
                exact canonicalEntries_dinsert
                  (fieldWF_default_facts hwf.1).2.1 h0

theorem setByFieldMap_empty_lookup (fs : List (String × FieldDesc))
    (st0 : List (String × Val)) (k : String) :
    dlookup k (setByFieldMap fs [] st0) = dlookup k st0 ∨
    ∃ f fd dv, (f, fd) ∈ fs ∧ fieldKey f fd = k ∧ fd.useDefault = some dv := by
  induction fs generalizing st0 with
  | nil => left; rw [setByFieldMap]
  | cons p rest ih =>
      obtain ⟨f, fd⟩ := p
      rw [setByFieldMap]
      rw [show dlookup f ([] : List (String × Json)) = none from rfl]
      cases hd : fd.useDefault with
      | some dv =>
          rcases ih (dinsert (fieldKey f fd) (.raw dv) st0) with h1 | h1
          · by_cases he : k = fieldKey f fd
            · right
              exact ⟨f, fd, dv, List.mem_cons_self _ _, he.symm, hd⟩
            · left
              rw [h1, dlookup_dinsert_ne _ _ he]
          · right
            obtain ⟨f2, fd2, dv2, hm, hk, hd2⟩ := h1
            exact ⟨f2, fd2, dv2, List.mem_cons_of_mem _ hm, hk, hd2⟩
      | none =>
          rcases ih st0 with h1 | h1
          · left; exact h1
          · right
            obtain ⟨f2, fd2, dv2, hm, hk, hd2⟩ := h1
            exact ⟨f2, fd2, dv2, List.mem_cons_of_mem _ hm, hk, hd2⟩

theorem fieldKeys_cons (f : String) (fd : FieldDesc) (rest : List (String × FieldDesc)) :
    fieldKeys ((f, fd) :: rest) = fieldKey f fd :: fieldKeys rest := rfl

theorem serializeValList_nil : serializeValList [] = [] := by simp [serializeValList]

theorem serializeValList_cons (w : Val) (ws : List Val) :
    serializeValList (w :: ws) = serializeVal w :: serializeValList ws := by
  simp [serializeValList]

theorem defaultsPresent_cons {f : String} {fd : FieldDesc}
    {rest : List (String × FieldDesc)} {entries : List (String × Json)}
    (h : defaultsPresent ((f, fd) :: rest) entries = true) :
    (match fd.useDefault with
     | some _ => (dlookup (fieldKey f fd) entries).isSome
     | none => true) = true ∧ defaultsPresent rest entries = true := by
  rw [defaultsPresent, List.all_cons, Bool.and_eq_true] at h
  exact h

theorem decodeAll_roundtrip (t : FieldDesc) (es : List Json)
    (hdec : ∀ v, fieldAccepts t v = true → fieldLenOk t v = true →
      canonicalJson v = true → ∃ w, fieldFromJson t v = .ok w ∧ serializeVal w = v)
    (hall : allAccepts t es = true) (hlen : allLenOk t es = true)
    (hcan : canonicalList es = true) :
    ∃ ws, decodeAll t es = .ok ws ∧ serializeValList ws = es := by
  induction es with
  | nil => exact ⟨[], by simp [decodeAll], serializeValList_nil⟩
  | cons e es2 ih =>
      rw [allAccepts, Bool.and_eq_true] at hall
      rw [allLenOk, Bool.and_eq_true] at hlen
      rw [canonicalList, Bool.and_eq_true] at hcan
      obtain ⟨w, hw, hsw⟩ := hdec e hall.1 hlen.1 hcan.1
      obtain ⟨ws, hws, hsws⟩ := ih hall.2 hlen.2 hcan.2
      exact ⟨w :: ws, by simp [decodeAll, hw, hws],
        by rw [serializeValList_cons, hsw, hsws]⟩

theorem decodeZip_roundtrip (ts : List FieldDesc) (es : List Json)
    (hdec : ∀ t ∈ ts, ∀ v, fieldAccepts t v = true → fieldLenOk t v = true →
      canonicalJson v = true → ∃ w, fieldFromJson t v = .ok w ∧ serializeVal w = v)
    (hz : zipAccepts ts es = true) (hle : es.length ≤ ts.length)
    (hzl : zipLenOk ts es = true) (hcan : canonicalList es = true) :
    ∃ ws, decodeZip ts es = .ok ws ∧ serializeValList ws = es := by
  induction ts generalizing es with
  | nil =>
      cases es with
      | nil => exact ⟨[], by simp [decodeZip], serializeValList_nil⟩
      | cons e es2 => simp at hle
  | cons t ts2 ih =>
      cases es with
      | nil => exact ⟨[], by simp [decodeZip], serializeValList_nil⟩
      | cons e es2 =>
          rw [zipAccepts, Bool.and_eq_true] at hz
          rw [zipLenOk, Bool.and_eq_true] at hzl
          rw [canonicalList, Bool.and_eq_true] at hcan
          rw [List.length_cons, List.length_cons, Nat.succ_le_succ_iff] at hle
          obtain ⟨w, hw, hsw⟩ := hdec t (List.mem_cons_self _ _) e hz.1 hzl.1 hcan.1
          obtain ⟨ws, hws, hsws⟩ :=
            ih es2 (fun u hu => hdec u (List.mem_cons_of_mem _ hu)) hz.2 hle hzl.2 hcan.2
          exact ⟨w :: ws, by simp [decodeZip, hw, hws],
            by rw [serializeValList_cons, hsw, hsws]⟩

theorem deserFields_roundtrip (fs : List (String × FieldDesc))
    (entries : List (String × Json)) (st0 : List (String × Val))
    (hdec : ∀ f fd, (f, fd) ∈ fs → ∀ v, fieldAccepts fd v = true →
      fieldLenOk fd v = true → canonicalJson v = true →
      ∃ w, fieldFromJson fd v = .ok w ∧ serializeVal w = v)
    (hnd : nodupKeysB (fieldKeys fs) = true)
    (hok : fieldsOk fs entries = true)
    (hlen : fieldsLenOk fs entries = true)
    (hdp : defaultsPresent fs entries = true)
    (hcan : canonicalEntries entries = true)
    (hs0 : keysSorted st0 = true) :
    ∃ st, deserFields fs entries st0 = .ok st ∧ keysSorted st = true ∧
      ∀ k, (match dlookup k entries with
            | some v =>
                if k ∈ fieldKeys fs then
                  ∃ w, dlookup k st = some w ∧ serializeVal w = v
                else dlookup k st = dlookup k st0
            | none => dlookup k st = dlookup k st0) := by
  induction fs generalizing st0 with
  | nil =>
      refine ⟨st0, by simp [deserFields], hs0, ?_⟩
      intro k
      cases dlookup k entries with
      | some v => simp [fieldKeys]
      | none => rfl
  | cons p rest ih =>
      obtain ⟨f, fd⟩ := p
      rw [fieldKeys_cons] at hnd
      obtain ⟨hnotin, hnd2⟩ := nodupKeysB_cons hnd
      rw [fieldsOk, Bool.and_eq_true] at hok
      rw [fieldsLenOk, Bool.and_eq_true] at hlen
      obtain ⟨hdphead, hdp2⟩ := defaultsPresent_cons hdp
      have hdecr := fun f2 fd2 hm => hdec f2 fd2 (List.mem_cons_of_mem _ hm)
      cases hv : dlookup (fieldKey f fd) entries with
      | some v =>
          rw [hv] at hok hlen
          have hcv : canonicalJson v = true := canonicalEntries_lookup hcan hv
          obtain ⟨w, hw, hsw⟩ := hdec f fd (List.mem_cons_self _ _) v hok.1 hlen.1 hcv
          obtain ⟨st, hst, hsst, hP⟩ :=
            ih (dinsert (fieldKey f fd) w st0) hdecr hnd2 hok.2 hlen.2 hdp2
              (keysSorted_dinsert _ _ hs0)
          refine ⟨st, by simp [deserFields, hv, hw, hst], hsst, ?_⟩
          intro k
          have hPk := hP k
          by_cases he : k = fieldKey f fd
          · subst he
            simp only [hv] at hPk ⊢
            rw [if_neg hnotin] at hPk
            rw [dlookup_dinsert_self] at hPk
            rw [if_pos (by rw [fieldKeys_cons]; exact List.mem_cons_self _ _)]
            exact ⟨w, hPk, hsw⟩
          · cases hv2 : dlookup k entries with
            | some v2 =>
                simp only [hv2] at hPk ⊢
                by_cases hm2 : k ∈ fieldKeys rest
                · rw [if_pos hm2] at hPk
                  rw [if_pos (by rw [fieldKeys_cons]; exact List.mem_cons_of_mem _ hm2)]
                  exact hPk
                · rw [if_neg hm2] at hPk
                  rw [if_neg (by
                    rw [fieldKeys_cons, List.mem_cons]
                    rintro (h1 | h1)
                    · exact he h1
                    · exact hm2 h1)]
                  rw [hPk, dlookup_dinsert_ne _ _ he]
            | none =>
                simp only [hv2] at hPk ⊢
                rw [hPk, dlookup_dinsert_ne _ _ he]
      | none =>
          cases hd : fd.useDefault with
          | some dv =>
              rw [hd] at hdphead
              rw [hv] at hdphead
              simp at hdphead
          | none =>
              rw [hv] at hok hlen
              obtain ⟨st, hst, hsst, hP⟩ :=
                ih st0 hdecr hnd2 hok.2 hlen.2 hdp2 hs0
              refine ⟨st, by simp [deserFields, hv, hd, hst], hsst, ?_⟩
              intro k
              have hPk := hP k
              by_cases he : k = fieldKey f fd
              · subst he
                simp only [hv] at hPk ⊢
                exact hPk
              · cases hv2 : dlookup k entries with
                | some v2 =>
                    simp only [hv2] at hPk ⊢
                    by_cases hm2 : k ∈ fieldKeys rest
                    · rw [if_pos hm2] at hPk
                      rw [if_pos (by rw [fieldKeys_cons]; exact List.mem_cons_of_mem _ hm2)]
                      exact hPk
                    · rw [if_neg hm2] at hPk
                      rw [if_neg (by
                        rw [fieldKeys_cons, List.mem_cons]
                        rintro (h1 | h1)
                        · exact he h1
                        · exact hm2 h1)]
                      exact hPk
                | none =>
                    simp only [hv2] at hPk ⊢
                    exact hPk

theorem schema_decode_serialize_eq (fs : List (String × FieldDesc))
    (entries : List (String × Json))
    (hdec : ∀ f fd, (f, fd) ∈ fs → ∀ v, fieldAccepts fd v = true →
      fieldLenOk fd v = true → canonicalJson v = true →
      ∃ w, fieldFromJson fd v = .ok w ∧ serializeVal w = v)
    (hnd : nodupKeysB (fieldKeys fs) = true)
    (hok : fieldsOk fs entries = true)
    (hcov : entriesCovered fs entries = true)
    (hlen : fieldsLenOk fs entries = true)
    (hdp : defaultsPresent fs entries = true)
    (hcanE : canonicalEntries entries = true)
    (hsortE : keysSorted entries = true) :
    ∃ st, deserFields fs entries (construct fs []) = .ok st ∧
      serializeStore st = entries := by
  have hs0 : keysSorted (construct fs []) = true :=
    keysSorted_setByFieldMap fs [] (by rfl)
  obtain ⟨st, hst, hsst, hP⟩ :=
    deserFields_roundtrip fs entries (construct fs []) hdec hnd hok hlen hdp hcanE hs0
  refine ⟨st, hst, ?_⟩
  apply dict_ext (keysSorted_serializeStore hsst) hsortE
  intro k
  rw [serializeStore_eq_map, dlookup_map_value]
  have hPk := hP k
  cases hv : dlookup k entries with
  | some v =>
      simp only [hv] at hPk
      rw [if_pos (entriesCovered_lookup hcov hv)] at hPk
      obtain ⟨w, hw, hsw⟩ := hPk
      rw [hw]
      simp [hsw]
  | none =>
      simp only [hv] at hPk
      have h0 : dlookup k (construct fs []) = none := by
        rcases setByFieldMap_empty_lookup fs [] k with h1 | h1
        · rw [construct, h1]
          rfl
        · obtain ⟨f2, fd2, dv2, hm, hk, hd2⟩ := h1
          have h3 := defaultsPresent_mem hdp hm hd2
          rw [hk, hv] at h3
          simp at h3
      rw [hPk, h0]
      rfl

theorem fieldFromJson_roundtrip_size : ∀ (N : Nat) (fd : FieldDesc) (v : Json),
    fdSize fd ≤ N → fieldWF fd = true → fieldAccepts fd v = true →
    fieldLenOk fd v = true → canonicalJson v = true →
    ∃ w, fieldFromJson fd v = .ok w ∧ serializeVal w = v := by
  intro N
  induction N with
  | zero =>
      intro fd v h
      cases fd with
      | mk r n d ty => simp [fdSize] at h
  | succ N ihN =>
      intro fd v hsz hwf hacc hlen hcan
      cases fd with
      | mk r n d ty =>
          cases ty with
          | prim k =>
              exact ⟨.raw v, by simp [fieldFromJson, hacc], by simp [serializeVal]⟩
          | schemaTy fs =>
              cases v with
              | obj entries =>
                  rw [show fieldAccepts (.mk r n d (.schemaTy fs)) (.obj entries) =
                        (fieldsOk fs entries && entriesCovered fs entries)
                      from by simp [fieldAccepts], Bool.and_eq_true] at hacc
                  rw [show fieldLenOk (.mk r n d (.schemaTy fs)) (.obj entries) =
                        (fieldsLenOk fs entries && defaultsPresent fs entries)
                      from by simp [fieldLenOk], Bool.and_eq_true] at hlen
                  rw [show canonicalJson (.obj entries) =
                        (keysSorted entries && canonicalEntries entries)
                      from by simp [canonicalJson], Bool.and_eq_true] at hcan
                  obtain ⟨hnd, hfw⟩ := tyWF_schema (fieldWF_tyWF hwf)
                  have hdec : ∀ f2 fd2, (f2, fd2) ∈ fs → ∀ v2,
                      fieldAccepts fd2 v2 = true → fieldLenOk fd2 v2 = true →
                      canonicalJson v2 = true →
                      ∃ w, fieldFromJson fd2 v2 = .ok w ∧ serializeVal w = v2 := by
                    intro f2 fd2 hm v2 h1 h2 h3
                    refine ihN fd2 v2 ?_ (fieldsWF_mem hfw hm) h1 h2 h3
                    have := fdSize_mem_fields hm
                    simp [fdSize, tySize] at hsz
                    omega
                  obtain ⟨st, hst, hse⟩ :=
                    schema_decode_serialize_eq fs entries hdec hnd hacc.1 hacc.2
                      hlen.1 hlen.2 hcan.2 hcan.1
                  refine ⟨.inst st, ?_, by simp [serializeVal, hse]⟩
                  rw [fieldFromJson]
                  rw [if_pos (by simp [fieldAccepts, hacc.1, hacc.2])]
                  rw [hst]
              | null => simp [fieldAccepts] at hacc
              | bool b => simp [fieldAccepts] at hacc
              | num n2 => simp [fieldAccepts] at hacc
              | str s => simp [fieldAccepts] at hacc
              | arr es => simp [fieldAccepts] at hacc
          | listOne t =>
              cases v with
              | arr es =>
                  have hall : allAccepts t es = true := by
                    simpa [fieldAccepts] using hacc
                  have hlall : allLenOk t es = true := by
                    simpa [fieldLenOk] using hlen
                  have hcl : canonicalList es = true := by
                    simpa [canonicalJson] using hcan
                  have hdec : ∀ v2, fieldAccepts t v2 = true → fieldLenOk t v2 = true →
                      canonicalJson v2 = true →
                      ∃ w, fieldFromJson t v2 = .ok w ∧ serializeVal w = v2 := by
                    intro v2 h1 h2 h3
                    refine ihN t v2 ?_ (tyWF_listOne (fieldWF_tyWF hwf)) h1 h2 h3
                    simp [fdSize, tySize] at hsz
                    omega
                  obtain ⟨ws, hws, hsws⟩ := decodeAll_roundtrip t es hdec hall hlall hcl
                  refine ⟨.listInst ws, ?_, by simp [serializeVal, hsws]⟩
                  rw [fieldFromJson]
                  rw [if_pos (by simp [fieldAccepts, hall])]
                  rw [hws]
              | null => simp [fieldAccepts] at hacc
              | bool b => simp [fieldAccepts] at hacc
              | num n2 => simp [fieldAccepts] at hacc
              | str s => simp [fieldAccepts] at hacc
              | obj entries => simp [fieldAccepts] at hacc
          | listMany ts =>
              cases v with
              | arr es =>
                  have hz : zipAccepts ts es = true := by
                    simpa [fieldAccepts] using hacc
                  rw [show fieldLenOk (.mk r n d (.listMany ts)) (.arr es) =
                        (decide (es.length ≤ ts.length) && zipLenOk ts es)
                      from by simp [fieldLenOk], Bool.and_eq_true,
                    decide_eq_true_eq] at hlen
                  have hcl : canonicalList es = true := by
                    simpa [canonicalJson] using hcan
                  have hdec : ∀ t2 ∈ ts, ∀ v2, fieldAccepts t2 v2 = true →
                      fieldLenOk t2 v2 = true → canonicalJson v2 = true →
                      ∃ w, fieldFromJson t2 v2 = .ok w ∧ serializeVal w = v2 := by
                    intro t2 hm v2 h1 h2 h3
                    refine ihN t2 v2 ?_
                      (fdListWF_mem (tyWF_listMany (fieldWF_tyWF hwf)) hm) h1 h2 h3
                    have := fdSize_mem_list hm
                    simp [fdSize, tySize] at hsz
                    omega
                  obtain ⟨ws, hws, hsws⟩ :=
                    decodeZip_roundtrip ts es hdec hz hlen.1 hlen.2 hcl
                  refine ⟨.listInst ws, ?_, by simp [serializeVal, hsws]⟩
                  rw [fieldFromJson]
                  rw [if_pos (by simp [fieldAccepts, hz])]
                  rw [hws]
              | null => simp [fieldAccepts] at hacc
              | bool b => simp [fieldAccepts] at hacc
              | num n2 => simp [fieldAccepts] at hacc
              | str s => simp [fieldAccepts] at hacc
              | obj entries => simp [fieldAccepts] at hacc

/-- A validated, shape-safe, canonical value decodes to an instance whose
serialization reproduces it exactly. -/
theorem fieldFromJson_roundtrip {fd : FieldDesc} {v : Json} (hwf : fieldWF fd = true)
    (hacc : fieldAccepts fd v = true) (hlen : fieldLenOk fd v = true)
    (hcan : canonicalJson v = true) :
    ∃ w, fieldFromJson fd v = .ok w ∧ serializeVal w = v :=
  fieldFromJson_roundtrip_size (fdSize fd) fd v (Nat.le_refl _) hwf hacc hlen hcan

/-- C3 counterexample: the round-trip law fails as claimed.  A schema with
one required positional-list field `xs` declared `List(Integer, Integer)`,
built from keyword data `xs = [1, 2, 3]`, serializes to `{xs: [1, 2, 3]}`;
that document validates against the compiled schema (an `items` array
without `additionalItems` leaves extra trailing elements unconstrained in
draft-07), yet `from_json` decodes it to an instance holding only `[1, 2]`
(the `zip` truncation), whose serialization differs from the original. -/
theorem roundtrip_counterexample :
    schemaAccepts
        [("xs", FieldDesc.mk true none none
          (.listMany [FieldDesc.mk true none none (.prim .integer),
                      FieldDesc.mk true none none (.prim .integer)]))]
        (.obj (serializeStore (construct
          [("xs", FieldDesc.mk true none none
            (.listMany [FieldDesc.mk true none none (.prim .integer),
                        FieldDesc.mk true none none (.prim .integer)]))]
          [("xs", Json.arr [Json.num 1, Json.num 2, Json.num 3])]))) = true ∧
    schemaFromJson
        [("xs", FieldDesc.mk true none none
          (.listMany [FieldDesc.mk true none none (.prim .integer),
                      FieldDesc.mk true none none (.prim .integer)]))]
        (.obj (serializeStore (construct
          [("xs", FieldDesc.mk true none none
            (.listMany [FieldDesc.mk true none none (.prim .integer),
                        FieldDesc.mk true none none (.prim .integer)]))]
          [("xs", Json.arr [Json.num 1, Json.num 2, Json.num 3])]))) =
      .ok [("xs", Val.listInst [Val.raw (Json.num 1), Val.raw (Json.num 2)])] ∧
    serializeStore [("xs", Val.listInst [Val.raw (Json.num 1), Val.raw (Json.num 2)])] ≠
      serializeStore (construct
        [("xs", FieldDesc.mk true none none
          (.listMany [FieldDesc.mk true none none (.prim .integer),
                      FieldDesc.mk true none none (.prim .integer)]))]
        [("xs", Json.arr [Json.num 1, Json.num 2, Json.num 3])]) := by
  have hstore : construct
      [("xs", FieldDesc.mk true none none
        (.listMany [FieldDesc.mk true none none (.prim .integer),
                    FieldDesc.mk true none none (.prim .integer)]))]
      [("xs", Json.arr [Json.num 1, Json.num 2, Json.num 3])] =
      [("xs", Val.raw (Json.arr [Json.num 1, Json.num 2, Json.num 3]))] := by
    simp [construct, setByFieldMap, dlookup, fieldKey, FieldDesc.name, dinsert]
  rw [hstore]
  have hser : serializeStore
      [("xs", Val.raw (Json.arr [Json.num 1, Json.num 2, Json.num 3]))] =
      [("xs", Json.arr [Json.num 1, Json.num 2, Json.num 3])] := by
    simp [serializeStore, serializeVal]
  rw [hser]
  refine ⟨?_, ?_, ?_⟩
  · simp [schemaAccepts, fieldsOk, fieldAccepts, zipAccepts, primAccepts,
      entriesCovered, dlookup, fieldKey, FieldDesc.name, FieldDesc.required]
  · rw [schemaFromJson,
      if_pos (by
        simp [schemaAccepts, fieldsOk, fieldAccepts, zipAccepts, primAccepts,
          entriesCovered, dlookup, fieldKey, FieldDesc.name, FieldDesc.required])]
    simp [deserFields, construct, setByFieldMap, dlookup, fieldKey, FieldDesc.name,
      FieldDesc.useDefault, fieldFromJson, fieldAccepts, zipAccepts, primAccepts,
      decodeZip, dinsert]
  · intro h
    rw [serializeStore_eq_map] at h
    simp [serializeVal, serializeValList] at h

/-- C3 amended: the round-trip law
`serialize (deserialize T (serialize i)) = serialize i` holds for every
instance built from keyword data, under the conditions the counterexample
family forces: the type is well-formed (its document keys are pairwise
distinct along the descriptor tree and every declared default is itself
valid for its field), the keyword values are canonical JSON values, the
serialized form validates against the compiled document, and the data is
shape-safe for decoding — no array is longer than its positional type tuple
(`zip` truncation) and every nested object carries its schema's defaulted
keys (`deserialize` adds missing defaults). -/
theorem schema_roundtrip (fields : List (String × FieldDesc))
    (kwargs : List (String × Json))
    (hwf : schemaWF fields = true)
    (hkw : canonicalEntries kwargs = true)
    (hacc : schemaAccepts fields (.obj (serializeStore (construct fields kwargs))) = true)
    (hlen : schemaLenOk fields (.obj (serializeStore (construct fields kwargs))) = true) :
    ∃ st, schemaFromJson fields (.obj (serializeStore (construct fields kwargs))) =
        .ok st ∧
      serializeStore st = serializeStore (construct fields kwargs) := by
  rw [schemaWF, Bool.and_eq_true] at hwf
  have hE : keysSorted (serializeStore (construct fields kwargs)) = true :=
    keysSorted_serializeStore (keysSorted_setByFieldMap _ _ (by rfl))
  have hcanE : canonicalEntries (serializeStore (construct fields kwargs)) = true := by
    rw [construct]
    exact setByFieldMap_serialize_canonical fields kwargs (by rfl) hkw hwf.2
  rw [show schemaAccepts fields (.obj (serializeStore (construct fields kwargs))) =
        (fieldsOk fields (serializeStore (construct fields kwargs)) &&
          entriesCovered fields (serializeStore (construct fields kwargs)))
      from by simp [schemaAccepts], Bool.and_eq_true] at hacc
  rw [show schemaLenOk fields (.obj (serializeStore (construct fields kwargs))) =
        (fieldsLenOk fields (serializeStore (construct fields kwargs)) &&
          defaultsPresent fields (serializeStore (construct fields kwargs)))
      from by simp [schemaLenOk], Bool.and_eq_true] at hlen
  have hdec : ∀ f fd, (f, fd) ∈ fields → ∀ v, fieldAccepts fd v = true →
      fieldLenOk fd v = true → canonicalJson v = true →
      ∃ w, fieldFromJson fd v = .ok w ∧ serializeVal w = v :=
    fun f fd hm v h1 h2 h3 =>
      fieldFromJson_roundtrip (fieldsWF_mem hwf.2 hm) h1 h2 h3
  obtain ⟨st, hst, hse⟩ :=
    schema_decode_serialize_eq fields (serializeStore (construct fields kwargs))
      hdec hwf.1 hacc.1 hacc.2 hlen.1 hlen.2 hcanE hE
  refine ⟨st, ?_, hse⟩
  rw [schemaFromJson]
  rw [if_pos (by simp [schemaAccepts, hacc.1, hacc.2])]
  exact hst

/-- Concrete instantiation of `schema_roundtrip`: a schema with a required
integer `a`, an optional string `b` with default `"x"` under external name
`bee`, a required nested schema `c` with one integer field `n`, and a
required single-typed integer list `d`; keyword data supplies `a`, `c` and
`d` and leaves `b` to its default. -/
theorem schema_roundtrip_witness :
    ∃ st, schemaFromJson
        [("a", FieldDesc.mk true none none (.prim .integer)),
         ("b", FieldDesc.mk false (some "bee") (some (Json.str "x")) (.prim .string)),
         ("c", FieldDesc.mk true none none
           (.schemaTy [("n", FieldDesc.mk true none none (.prim .integer))])),
         ("d", FieldDesc.mk true none none
           (.listOne (FieldDesc.mk true none none (.prim .integer))))]
        (.obj (serializeStore (construct
          [("a", FieldDesc.mk true none none (.prim .integer)),
           ("b", FieldDesc.mk false (some "bee") (some (Json.str "x")) (.prim .string)),
           ("c", FieldDesc.mk true none none
             (.schemaTy [("n", FieldDesc.mk true none none (.prim .integer))])),
           ("d", FieldDesc.mk true none none
             (.listOne (FieldDesc.mk true none none (.prim .integer))))]
          [("a", Json.num 1), ("c", Json.obj [("n", Json.num 7)]),
           ("d", Json.arr [Json.num 1, Json.num 2])]))) = .ok st ∧
      serializeStore st = serializeStore (construct
        [("a", FieldDesc.mk true none none (.prim .integer)),
         ("b", FieldDesc.mk false (some "bee") (some (Json.str "x")) (.prim .string)),
         ("c", FieldDesc.mk true none none
           (.schemaTy [("n", FieldDesc.mk true none none (.prim .integer))])),
         ("d", FieldDesc.mk true none none
           (.listOne (FieldDesc.mk true none none (.prim .integer))))]
        [("a", Json.num 1), ("c", Json.obj [("n", Json.num 7)]),
         ("d", Json.arr [Json.num 1, Json.num 2])]) :=
  schema_roundtrip
    [("a", FieldDesc.mk true none none (.prim .integer)),
     ("b", FieldDesc.mk false (some "bee") (some (Json.str "x")) (.prim .string)),
     ("c", FieldDesc.mk true none none
       (.schemaTy [("n", FieldDesc.mk true none none (.prim .integer))])),
     ("d", FieldDesc.mk true none none
       (.listOne (FieldDesc.mk true none none (.prim .integer))))]
    [("a", Json.num 1), ("c", Json.obj [("n", Json.num 7)]),
     ("d", Json.arr [Json.num 1, Json.num 2])]
    (by simp [schemaWF, nodupKeysB, fieldKeys, fieldKey, FieldDesc.name, fieldsWF,
      fieldWF, tyWF, fdListWF, fieldAccepts, primAccepts, canonicalJson, fieldLenOk,
      FieldDesc.useDefault, keysSorted, canonicalEntries, fieldsLenOk, defaultsPresent])
    (by simp [canonicalEntries, canonicalJson, canonicalList, keysSorted])
    (by simp [construct, setByFieldMap, dlookup, derase, dinsert, fieldKey,
      FieldDesc.name, FieldDesc.useDefault, strLtB, listLtB, charLtB, serializeStore,
      serializeVal, serializeValList, schemaAccepts, fieldsOk, fieldAccepts,
      primAccepts, allAccepts, zipAccepts, entriesCovered, FieldDesc.required])
    (by simp [construct, setByFieldMap, dlookup, derase, dinsert, fieldKey,
      FieldDesc.name, FieldDesc.useDefault, strLtB, listLtB, charLtB, serializeStore,
      serializeVal, serializeValList, schemaLenOk, fieldsLenOk, fieldLenOk,
      allLenOk, zipLenOk, defaultsPresent])

end Jsonene
